import Mathlib


/-!
Verification development for GRAPE's `GeneralGraph` (file `grape/general_graph.py`).

The Python class stores a directed graph of plant elements (nodes keyed by a
string `Mark`) whose edges carry a logical condition (`Father_cond`:
`SINGLE`/`AND`/`OR`/`ORPHAN`) and a numeric `weight`.  This file gives a shallow
embedding of the parts of the class needed to settle the frozen claims:

* the graph store and the node-attribute maps captured by `load`,
* the cascade engine `rm_nodes`,
* the serial Floyd--Warshall back-end (`floyd_warshall_initialization`,
  `floyd_warshall_kernel`, `ConstructPath`,
  `floyd_warshall_predecessor_and_distance_serial`),
* the serial Dijkstra back-end (`single_source_shortest_path_serial`, whose
  algorithmic core is networkx's `single_source_dijkstra` and is modelled from
  the spec),
* the efficiency / centrality calculators (`nodal_eff`, `global_eff`,
  `local_eff`, `betweenness_centrality`, `closeness_centrality`, degree
  centralities),
* the orchestrators `delete_a_node` / `simulate_multi_area_perturbation`
  together with `check_before`, `check_after`, `merge_lists`,
  `update_status` and the two result tables.

Numbers are embedded as rationals (`ℚ`), with `WithTop ℚ` playing the role of
IEEE `inf` in the distance matrices; Python code that can raise an exception is
embedded in `Except String`.
-/

/-- An edge row of the loaded graph: `Father_mark`, `Mark`, the edge attributes
`Father_cond` and `weight` (the parsed `Service` field). -/
structure EdgeRec where
  father : String
  child : String
  fcond : String
  weight : ℚ
deriving DecidableEq, Repr


/-- The graph store: node `Mark`s in insertion order, and the directed edges.
`networkx.DiGraph` holds at most one edge per ordered pair; lookups below take
the first matching list entry, which is that unique edge. -/
structure Graph where
  nodes : List String
  edges : List EdgeRec
deriving DecidableEq, Repr


/-- Node-attribute maps captured by `load`:  `self.D` (Description),
`self.status` (InitStatus), `self.area` (Area), `self.FR`
(PerturbationResistant), `self.Type` (Type).  They are read-only after load. -/
structure PlantData where
  desc : String → String
  status : String → String
  areaOf : String → String
  resist : String → String
  typ : String → String


/-- `self.valv` has keys `isolation_A`, `isolation_B`, `unknown`;
`self.D[node] in self.valv` tests membership in that key set. -/
def isValve (pd : PlantData) (v : String) : Prop :=
  pd.desc v = "isolation_A" ∨ pd.desc v = "isolation_B" ∨ pd.desc v = "unknown"


instance (pd : PlantData) (v : String) : Decidable (isValve pd v) := by
  unfold isValve; infer_instance


/-- `list(self.predecessors(node))`: fathers of the edges ending at `v`,
in edge-insertion order. -/
def predecessors (g : Graph) (v : String) : List String :=
  (g.edges.filter (fun e => e.child = v)).map (fun e => e.father)


/-- `set(self[node])`: children of the edges starting at `v`. -/
def successors (g : Graph) (v : String) : List String :=
  (g.edges.filter (fun e => e.father = v)).map (fun e => e.child)


/-- `self.condition[(p, v)]`: the `Father_cond` attribute of edge `p → v`
(the default is never used: the pair is always an existing edge). -/
def condLookup (g : Graph) (p v : String) : String :=
  ((g.edges.find? (fun e => e.father = p ∧ e.child = v)).map (fun e => e.fcond)).getD ""


/-- Deduplication keeping first occurrences; stands in for collecting values
into a Python `set` (whose iteration order is unspecified). -/
def dedupFirst (l : List String) : List String :=
  l.foldl (fun acc x => if x ∈ acc then acc else acc ++ [x]) []


/-- The condition set `cond` built by `rm_nodes` for a non-valve node: the
`Father_cond` values of the incoming edges, or `{"SINGLE"}` when the node has
no predecessor. -/
def collectConds (g : Graph) (v : String) : List String :=
  let pred := predecessors g v
  if pred.isEmpty then ["SINGLE"]
  else dedupFirst (pred.map (fun p => condLookup g p v))


/-- `list(cond)[0]`: the representative element of the condition set that
`rm_nodes` inspects. -/
def condRep (g : Graph) (v : String) : String :=
  (collectConds g v).headD "SINGLE"


/-- The mutable cascade state shared by the `rm_nodes` recursion:
`self.broken` (list of `(Mark, "NULL")` pairs), `self.newstatus` (dict, as an
insertion-ordered association list) and the `visited` set (as a duplicate-free
list in insertion order, so that `len(visited)` is its length). -/
structure CState where
  broken : List (String × String)
  newstatus : List (String × String)
  visited : List String
deriving DecidableEq, Repr


/-- Python `dict` update `d[k] = v`: overwrite in place, or append. -/
def dictSet (d : List (String × String)) (k v : String) : List (String × String) :=
  if d.any (fun p => p.1 = k) then d.map (fun p => if p.1 = k then (k, v) else p)
  else d ++ [(k, v)]


/-- Python `set.add`. -/
def visitAdd (vis : List String) (n : String) : List String :=
  if n ∈ vis then vis else vis ++ [n]


/-- `count` in `rm_nodes`: the number of predecessors `p` with
`any(p in x for x in self.broken)` — membership of `p` in a broken tuple. -/
def brokenCount (broken : List (String × String)) (pred : List String) : Nat :=
  (pred.filter (fun p => broken.any (fun x => p = x.1 ∨ p = x.2))).length


/-- One visit of `rm_nodes` at `node` (everything before the successor loop).
Returns the updated state and whether the function falls through to the
`for next in set(self[node]) - visited` loop (`false` = an early `return`). -/
def rmProcess (g : Graph) (pd : PlantData) (node : String) (cs : CState) :
    CState × Bool :=
  let cs1 : CState := ⟨cs.broken, cs.newstatus, visitAdd cs.visited node⟩
  if isValve pd node then
    let cs2 : CState :=
      if pd.status node = "1" then ⟨cs1.broken, dictSet cs1.newstatus node "0", cs1.visited⟩
      else cs1
    if cs2.visited.length = 1 then
      (⟨cs2.broken ++ [(node, "NULL")], cs2.newstatus, cs2.visited⟩, true)
    else (cs2, false)
  else
    let pred := predecessors g node
    let count := brokenCount cs1.broken pred
    if condRep g node ≠ "OR" then
      (⟨cs1.broken ++ [(node, "NULL")], cs1.newstatus, cs1.visited⟩, true)
    else
      if cs1.visited.length = 1 then
        (⟨cs1.broken ++ [(node, "NULL")], cs1.newstatus, cs1.visited⟩, true)
      else
        if pred.length - count = 0 then
          (⟨cs1.broken ++ [(node, "NULL")], cs1.newstatus, cs1.visited⟩, true)
        else (cs1, false)


/-- `rm_nodes(node, visited)`: depth-first failure propagation.  The successor
list of the loop is frozen against the `visited` set as it stands right after
processing `node` (in Python the set difference is evaluated once when the loop
starts), while the shared state keeps evolving through the recursive calls.
The recursion depth is bounded by the number of nodes, so any
`fuel ≥ |nodes|` reproduces the Python recursion. -/
def rmNodes (g : Graph) (pd : PlantData) : ℕ → String → CState → CState
  | 0, _, cs => cs
  | (f + 1), node, cs =>
    let p := rmProcess g pd node cs
    if p.2 then
      ((successors g node).filter (fun s => s ∉ p.1.visited)).foldl
        (fun acc nxt => rmNodes g pd f nxt acc) p.1
    else p.1


/-- `self.bn = list(set(list(chain(*self.broken))))` followed by removing
`"NULL"`: the distinct Marks occurring in broken tuples, without the `NULL`
sentinel. -/
def bnOf (broken : List (String × String)) : List String :=
  (dedupFirst (broken.flatMap (fun p => [p.1, p.2]))).filter (fun m => m ≠ "NULL")


/-- Scenario S2 of the spec: `A→C` and `B→C`, both `OR`, weight 1. -/
def gS2 : Graph :=
  ⟨["A", "B", "C"], [⟨"A", "C", "OR", 1⟩, ⟨"B", "C", "OR", 1⟩]⟩


/-- S2 node attributes: no valves, everything initially on. -/
def pdS2 : PlantData :=
  ⟨fun _ => "generic", fun _ => "1", fun _ => "area1", fun _ => "0",
   fun m => if m = "C" then "USER" else "SOURCE"⟩


/-- Scenario S4 of the spec: chain `S → V → U` where `V` is an `isolation_A`
valve with `InitStatus = "1"`. -/
def gS4 : Graph :=
  ⟨["S", "V", "U"], [⟨"S", "V", "SINGLE", 1⟩, ⟨"V", "U", "SINGLE", 1⟩]⟩


/-- S4 node attributes. -/
def pdS4 : PlantData :=
  ⟨fun m => if m = "V" then "isolation_A" else "generic", fun _ => "1",
   fun _ => "area1", fun _ => "0",
   fun m => if m = "S" then "SOURCE" else if m = "U" then "USER" else "HUB"⟩


/-! ### The all-pairs shortest-path engine

`floyd_warshall_initialization` relabels the nodes `0 … n-1` in node-insertion
order (`convert_node_labels_to_integers`); index `i` is the node
`g.nodes[i]`, and `self.ids_reversed` maps a Mark back to its index. -/

/-- `self.ids[i]`: the Mark of integer label `i`. -/
def markOf (g : Graph) (i : ℕ) : String := g.nodes.getD i ""


/-- `self.ids_reversed[m]`: the integer label of Mark `m`. -/
def idxOf (g : Graph) (m : String) : ℕ := g.nodes.indexOf m


/-- The weight of the unique edge `i → j` if it exists (adjacency-matrix
entry produced by `nx.to_numpy_matrix` before the zero rewrite). -/
def adjW (g : Graph) (i j : ℕ) : Option ℚ :=
  (g.edges.find? (fun e => e.father = markOf g i ∧ e.child = markOf g j)).map
    (fun e => e.weight)


/-- The initial distance matrix: `dist = to_numpy_matrix(...)` (0 where no
edge), then `dist[dist == 0] = np.inf` — note that this also wipes out genuine
zero-weight edges — then `np.fill_diagonal(dist, 0.)`. -/
def dist0 (g : Graph) (i j : ℕ) : WithTop ℚ :=
  if i = j then 0
  else
    match adjW g i j with
    | some q => if q = 0 then ⊤ else (q : WithTop ℚ)
    | none => ⊤


/-- The initial predecessor matrix: `pred[u, v] = u` for every edge `u → v`
(regardless of its weight), `np.inf` elsewhere (`none` embeds `np.inf`). -/
def pred0 (g : Graph) (i j : ℕ) : Option ℕ :=
  if (adjW g i j).isSome then some i else none


/-- The serial `floyd_warshall_kernel` distance iteration
(`init = 0`, `stop = n`).  The numpy statement materialises
`np.add.outer(dist[:, w], dist[w, :])` from the pre-iteration values before
`np.minimum` writes into `dist`, so iteration `w = k` is exactly
`dist ← min(dist[i,j], dist[i,k] + dist[k,j])` on the old matrix;
`fwD g k` is the matrix after iterations `w = 0 … k-1`. -/
def fwD (g : Graph) : ℕ → ℕ → ℕ → WithTop ℚ
  | 0, i, j => dist0 g i j
  | (k + 1), i, j => min (fwD g k i j) (fwD g k i k + fwD g k k j)


/-- The predecessor update of `floyd_warshall_kernel`: where the distance
entry strictly changed (`~np.equal(dist, dist_copy)`), `pred[i, j] ← pred[w, j]`
(the tiled row `w` is also read from the pre-iteration matrix). -/
def fwP (g : Graph) : ℕ → ℕ → ℕ → Option ℕ
  | 0, i, j => pred0 g i j
  | (k + 1), i, j =>
    if fwD g k i k + fwD g k k j < fwD g k i j then fwP g k k j else fwP g k i j


/-- The `while curr != source` loop of `ConstructPath`: step `curr` through the
predecessor matrix and append.  The Python loop terminates on every matrix
produced by the kernel (proved below); fuel `≥ n` reproduces it.  A `none`
predecessor inside the loop cannot occur on a kernel matrix. -/
def cpLoop (pm : ℕ → ℕ → Option ℕ) (s : ℕ) : ℕ → ℕ → List ℕ → List ℕ
  | 0, _, acc => acc
  | (f + 1), curr, acc =>
    if curr = s then acc
    else
      match pm s curr with
      | some c => cpLoop pm s f c (acc ++ [c])
      | none => acc


/-- `ConstructPath(source, target, pred)`: `[source]` if `source == target`;
empty if `pred[source, target]` is `inf`; otherwise the walk
`[target, pred[s,t], pred[s, ·], …, source]`, mapped through `self.ids` and
reversed. -/
def constructPath (g : Graph) (pm : ℕ → ℕ → Option ℕ) (s t : ℕ) : List String :=
  let ipath : List ℕ :=
    if s = t then [s]
    else
      match pm s t with
      | none => []
      | some c => cpLoop pm s g.nodes.length c [t, c]
  (ipath.map (markOf g)).reverse


/-- The reconstructed path of the serial Floyd–Warshall run for the pair
`(s, t)` of integer labels. -/
def fwPathOf (g : Graph) (s t : ℕ) : List String :=
  constructPath g (fwP g g.nodes.length) s t


/-- The key set of `self.nodes[s]["shortest_path"]`: the dict comprehension
keeps exactly the targets whose reconstructed path is non-empty. -/
def fwKeys (g : Graph) (s : ℕ) : List ℕ :=
  (List.range g.nodes.length).filter (fun t => fwPathOf g s t ≠ [])


/-- `self.nodes[s]["shpath_length"][t]` after the serial Floyd–Warshall run:
present iff the reconstructed path is non-empty, and equal to
`dist[ids_reversed[value[0]], ids_reversed[value[-1]]]` where `value` is the
reconstructed path. -/
def fwLengthTable (g : Graph) (s t : ℕ) : Option (WithTop ℚ) :=
  let p := fwPathOf g s t
  if p = [] then none
  else some (fwD g g.nodes.length (idxOf g (p.headD "")) (idxOf g (p.getLastD "")))


/-- `efficiency = 1 / length_path if length_path != 0 else 0`; on an `inf`
entry numpy evaluates `1 / inf = 0.0`, embedded by the `⊤` branch. -/
def effOf (l : WithTop ℚ) : ℚ :=
  if l = 0 then 0
  else if l = ⊤ then 0
  else 1 / l.untop' 0


/-- The value of one `efficiency` entry of the serial Floyd–Warshall run:
`effOf` applied to the stored `shpath_length` value
`dist[ids_reversed[value[0]], ids_reversed[value[-1]]]`. -/
def fwEffOf (g : Graph) (s t : ℕ) : ℚ :=
  effOf (fwD g g.nodes.length (idxOf g ((fwPathOf g s t).headD ""))
    (idxOf g ((fwPathOf g s t).getLastD "")))


/-- The `efficiency` attribute list written by the serial Floyd–Warshall run:
one entry per `shortest_path` key, in key order. -/
def fwEffList (g : Graph) (s : ℕ) : List (ℕ × ℚ) :=
  (fwKeys g s).map (fun t => (t, fwEffOf g s t))


/-! ### Walks, simple paths, and the Dijkstra back-end -/

/-- Total weight of a walk given as its vertex list: the sum of the step
weights `w a b` over consecutive vertices. -/
def lw (w : ℕ → ℕ → WithTop ℚ) : List ℕ → WithTop ℚ
  | [] => 0
  | [_] => 0
  | a :: b :: r => w a b + lw w (b :: r)


/-- The interior vertices of a walk: everything strictly between the first and
the last vertex. -/
def wInterior (p : List ℕ) : List ℕ := p.tail.dropLast


/-- Step weights of the raw graph (no zero-weight rewrite): the weight actually
used by Dijkstra. -/
def ewT (g : Graph) (i j : ℕ) : WithTop ℚ :=
  match adjW g i j with
  | some q => (q : WithTop ℚ)
  | none => ⊤


/-- All ways of inserting `a` into a list (an executable permutation
enumeration helper). -/
def insertEverywhere (a : ℕ) : List ℕ → List (List ℕ)
  | [] => [[a]]
  | b :: l => (a :: b :: l) :: (insertEverywhere a l).map (fun m => b :: m)


/-- All permutations of a list, by structural recursion (so that concrete
instances evaluate inside the kernel). -/
def permsR : List ℕ → List (List ℕ)
  | [] => [[]]
  | a :: l => (permsR l).flatMap (insertEverywhere a)


/-- All duplicate-free vertex lists over `0 … n-1`. -/
def nodupLists (n : ℕ) : List (List ℕ) :=
  (List.range n).sublists.flatMap permsR


/-- All duplicate-free vertex lists from `s` to `t`: the candidate simple
paths. -/
def pathCands (n s t : ℕ) : List (List ℕ) :=
  (nodupLists n).filter (fun p => p.head? = some s ∧ p.getLast? = some t)


/-- Minimum walk weight over the candidate simple paths from `s` to `t`
(`⊤` when no candidate uses only existing edges). -/
def shortestDistW (w : ℕ → ℕ → WithTop ℚ) (n s t : ℕ) : WithTop ℚ :=
  (pathCands n s t).foldr (fun p m => min (lw w p) m) ⊤


/-- Modelled from the spec: `single_source_shortest_path_serial` stores, for
each source, networkx's `single_source_dijkstra` length map — "For each source
node n, run a single-source Dijkstra on non-negative edge weights yielding
(shpath_length_map, shortest_path_map)".  The map contains every target
reachable from the source (the source itself at distance 0) with the minimum
total edge weight over paths; `networkx` is an external collaborator, so this
back-end is embedded by that defining property. -/
def dijkstraLength (g : Graph) (s t : ℕ) : Option (WithTop ℚ) :=
  let d := shortestDistW (ewT g) g.nodes.length s t
  if d = ⊤ then none else some d


/-- Modelled from the spec: the path map of `single_source_dijkstra` — a
minimum-weight path per reachable target (empty when unreachable). -/
def dijkstraPath (g : Graph) (s t : ℕ) : List String :=
  match (pathCands g.nodes.length s t).find?
      (fun p => lw (ewT g) p = shortestDistW (ewT g) g.nodes.length s t) with
  | some p => p.map (markOf g)
  | none => []


/-- Modelled from the spec: `nx.has_path` — reachability, i.e. some candidate
simple path uses only existing edges. -/
def hasPathB (g : Graph) (s t : ℕ) : Bool :=
  decide (shortestDistW (ewT g) g.nodes.length s t ≠ ⊤)


/-- Modelled from the spec: `nx.all_simple_paths` — every simple path between
the two labels, as Mark lists (enumeration order is a modelling choice; the
orchestrator only stores the list). -/
def allSimplePaths (g : Graph) (s t : ℕ) : List (List String) :=
  ((pathCands g.nodes.length s t).filter (fun p => lw (ewT g) p ≠ ⊤)).map
    (fun p => p.map (markOf g))


/-- How many nodes are strictly closer to `s` than `c` is: the termination
measure of the `ConstructPath` loop. -/
def fwNearer (g : Graph) (s c : ℕ) : ℕ :=
  ((Finset.range g.nodes.length).filter
    (fun u => fwD g g.nodes.length s u < fwD g g.nodes.length s c)).card


/-- The two-node graph with a single zero-weight edge `A → B`. -/
def gZeroW : Graph := ⟨["A", "B"], [⟨"A", "B", "SINGLE", 0⟩]⟩


/-- A three-node graph with a zero-weight edge on the only `A → C` route:
`A → B` has weight 0 and `B → C` has weight 1. -/
def gZ2 : Graph :=
  ⟨["A", "B", "C"], [⟨"A", "B", "SINGLE", 0⟩, ⟨"B", "C", "SINGLE", 1⟩]⟩


/-! ### Efficiency and centrality calculators -/

/-- The `efficiency` attribute of node `m` as a Mark-keyed list (the Python
dicts are keyed by the target's Mark). -/
def fwEffTable (g : Graph) : String → List (String × ℚ) :=
  fun m => (fwEffList g (idxOf g m)).map (fun kv => (markOf g kv.1, kv.2))


/-- The `shortest_path` attribute of node `m` after the serial Floyd–Warshall
run: the reconstructed paths, in target-key order. -/
def fwSP (g : Graph) : String → List (List String) :=
  fun m => (fwKeys g (idxOf g m)).map (fun t => fwPathOf g (idxOf g m) t)


/-- `nodal_eff`: sums each node's `efficiency` entries and divides by
`g_len - 1` where `g_len` is the live node count.  On an empty graph
`list(self)[0]` raises `IndexError`; with exactly one live node the single
efficiency entry is the self entry, the Python integer `0`, so
`0 / (g_len - 1)` is an integer division by zero and raises
`ZeroDivisionError`.  Both the pre-perturbation branch
(`original_nodal_eff`) and the post-perturbation branch (`final_nodal_eff`)
perform this same division. -/
def nodalEff (nodes : List String) (eff : String → List (String × ℚ)) :
    Except String (String → ℚ) :=
  if nodes.length = 0 then Except.error "IndexError: list index out of range"
  else if nodes.length = 1 then
    Except.error "ZeroDivisionError: division by zero"
  else
    Except.ok (fun v => ((eff v).map (fun kv => kv.2)).sum /
      ((nodes.length : ℚ) - 1))


/-- `tot_shortest_paths_list` in `betweenness_centrality` (and
`closeness_centrality`): every reconstructed shortest path with more than one
node, over all live nodes in order. -/
def allLongPaths (nodes : List String) (sp : String → List (List String)) :
    List (List String) :=
  nodes.flatMap (fun m => (sp m).filter (fun p => 1 < p.length))


/-- `betweenness_centrality`: for each node, the number of long reconstructed
shortest paths containing it strictly inside, divided by the total number of
long paths.  The division sits inside the `for node in self` loop, so an empty
graph performs no division, while a non-empty graph with no long path raises
`ZeroDivisionError`. -/
def betweennessCentrality (nodes : List String)
    (sp : String → List (List String)) : Except String (List (String × ℚ)) :=
  let L := allLongPaths nodes sp
  if nodes.isEmpty then Except.ok []
  else if L.length = 0 then
    Except.error "ZeroDivisionError: division by zero"
  else
    Except.ok (nodes.map (fun v =>
      (v, ((L.filter (fun l => v ∈ l ∧ v ≠ l.headD "" ∧ v ≠ l.getLastD "")).length : ℚ) /
        (L.length : ℚ))))


/-- The two-node graph with no edge at all. -/
def gEdgeless : Graph := ⟨["A", "B"], []⟩


/-- The six-node chain `A→B→C→D→E→F`, all `SINGLE`, weight 1. -/
def gChain6 : Graph :=
  ⟨["A", "B", "C", "D", "E", "F"],
   [⟨"A", "B", "SINGLE", 1⟩, ⟨"B", "C", "SINGLE", 1⟩, ⟨"C", "D", "SINGLE", 1⟩,
    ⟨"D", "E", "SINGLE", 1⟩, ⟨"E", "F", "SINGLE", 1⟩]⟩


/-! ### The perturbation orchestrator -/

/-- A value stored in a service-paths row: a length, an efficiency, a path, a
list of simple paths, or the `"NO_PATH"` sentinel. -/
inductive RVal where
  | num (q : WithTop ℚ)
  | rat (q : ℚ)
  | path (p : List String)
  | paths (ps : List (List String))
  | noPath
deriving DecidableEq, Repr


/-- One service-paths row.  `lst0` rows carry the `original_*` fields, `lst`
rows the `final_*` fields plus `area`; a Python dict key is "present" when the
`Option` is `some`. -/
structure SRow where
  src : String
  tgt : String
  ids : String
  area : Option String := none
  origSPL : Option RVal := none
  origSP : Option RVal := none
  origSIP : Option RVal := none
  origEff : Option RVal := none
  finSPL : Option RVal := none
  finSP : Option RVal := none
  finSIP : Option RVal := none
  finEff : Option RVal := none
deriving DecidableEq, Repr


/-- Python's `dict.update`: every key present in the second row overwrites the
first row's value; `from`, `to` and `ids` are present in every row. -/
def SRow.update (r1 r2 : SRow) : SRow :=
  { src := r2.src, tgt := r2.tgt, ids := r2.ids,
    area := r2.area.or r1.area,
    origSPL := r2.origSPL.or r1.origSPL, origSP := r2.origSP.or r1.origSP,
    origSIP := r2.origSIP.or r1.origSIP, origEff := r2.origEff.or r1.origEff,
    finSPL := r2.finSPL.or r1.finSPL, finSP := r2.finSP.or r1.finSP,
    finSIP := r2.finSIP.or r1.finSIP, finEff := r2.finEff.or r1.finEff }


/-- One step of `merge_lists`: insert a row into the insertion-ordered
`merged` dict, updating in place when the key is already present. -/
def mergeInto (acc : List (String × SRow)) (r : SRow) : List (String × SRow) :=
  if acc.any (fun kv => kv.1 = r.ids) then
    acc.map (fun kv => if kv.1 = r.ids then (kv.1, kv.2.update r) else kv)
  else acc ++ [(r.ids, r)]


/-- `merge_lists(l1, l2, "ids")`: fold `l1 + l2` into a dict keyed by `ids`
and return the values in first-insertion order. -/
def mergeLists (l1 l2 : List SRow) : List SRow :=
  ((l1 ++ l2).foldl mergeInto []).map (fun kv => kv.2)


/-- The per-backend APSP output: the `shortest_path` entry and `shpath_length`
entry of a Mark pair, the `efficiency` list of a node, and the node's
`shortest_path` values in key order. -/
structure APSPTables where
  sp : String → String → Option (List String)
  lenT : String → String → Option (WithTop ℚ)
  eff : String → List (String × ℚ)
  spList : String → List (List String)


/-- The tables of the serial Floyd–Warshall back-end. -/
def fwTables (g : Graph) : APSPTables :=
  { sp := fun ms mt =>
      if fwPathOf g (idxOf g ms) (idxOf g mt) = [] then none
      else some (fwPathOf g (idxOf g ms) (idxOf g mt)),
    lenT := fun ms mt => fwLengthTable g (idxOf g ms) (idxOf g mt),
    eff := fwEffTable g,
    spList := fwSP g }


/-- The efficiency list of the Dijkstra back-end (one entry per reachable
target, `effOf` of its length). -/
def dijkEffList (g : Graph) (s : ℕ) : List (String × ℚ) :=
  (List.range g.nodes.length).filterMap (fun t =>
    match dijkstraLength g s t with
    | some l => some (markOf g t, effOf l)
    | none => none)


/-- The tables of the serial Dijkstra back-end. -/
def dijkTables (g : Graph) : APSPTables :=
  { sp := fun ms mt =>
      if dijkstraPath g (idxOf g ms) (idxOf g mt) = [] then none
      else some (dijkstraPath g (idxOf g ms) (idxOf g mt)),
    lenT := fun ms mt => dijkstraLength g (idxOf g ms) (idxOf g mt),
    eff := fun m => dijkEffList g (idxOf g m),
    spList := fun m => (List.range g.nodes.length).filterMap (fun t =>
      if dijkstraPath g (idxOf g m) t = [] then none
      else some (dijkstraPath g (idxOf g m) t)) }


/-- `calculate_shortest_path`: density-based selection.  `nx.density` is
`|E| / (|V| (|V|-1))` for a directed graph and 0 when `|V| ≤ 1` (modelled from
networkx).  The parallel variants compute the same tables as the serial ones
(their concurrency is outside this embedding), so both rows of the selection
table map to the same serial table builders. -/
def calculateShortestPath (g : Graph) : APSPTables :=
  let n := g.nodes.length
  let d : ℚ := if n ≤ 1 then 0
    else (g.edges.length : ℚ) / ((n : ℚ) * ((n : ℚ) - 1))
  if 10000 < n then
    if d ≤ 1 / 1000000 then dijkTables g else fwTables g
  else
    if d ≤ 1 / 1000000 then dijkTables g else fwTables g


/-- `global_eff`: the `original_nodal_eff` sum over live nodes divided by the
node count; `list(self)[0]` raises on an empty graph. -/
def globalEff (nodes : List String) (ne : String → ℚ) : Except String ℚ :=
  if nodes.length = 0 then Except.error "IndexError: list index out of range"
  else Except.ok ((nodes.map ne).sum / (nodes.length : ℚ))


/-- `local_eff`: the mean nodal efficiency over a node's successors, 0 when it
has none. -/
def localEff (g : Graph) (ne : String → ℚ) : String → ℚ :=
  fun v =>
    let s := successors g v
    if s.length = 0 then 0 else (s.map ne).sum / (s.length : ℚ)


/-- `closeness_centrality`: `norm = len(totsp) / (g_len - 1)` divides by zero
on a one-node graph; the value is `(k / Σ totsp) * norm` when the length sum
is non-zero and 0 otherwise (an `inf` sum gives `k / inf = 0.0`). -/
def closenessCentrality (nodes : List String)
    (spList : String → List (List String))
    (lenT : String → String → Option (WithTop ℚ)) :
    Except String (List (String × ℚ)) :=
  let L := allLongPaths nodes spList
  if nodes.isEmpty then Except.ok []
  else if nodes.length = 1 then
    Except.error "ZeroDivisionError: division by zero"
  else
    Except.ok (nodes.map (fun v =>
      let totsp := (L.filter (fun l => v ∈ l ∧ v = l.getLastD "")).map
        (fun l => (lenT (l.headD "") (l.getLastD "")).getD ⊤)
      let k : ℚ := totsp.length
      let norm := k / ((nodes.length : ℚ) - 1)
      let ssum := totsp.sum
      (v, if ssum = 0 then 0
        else if ssum = ⊤ then 0
        else (k / ssum.untop' 1) * norm)))


/-- Weighted in-degree of a node. -/
def indegW (g : Graph) (v : String) : ℚ :=
  ((g.edges.filter (fun e => e.child = v)).map (fun e => e.weight)).sum


/-- Weighted out-degree of a node. -/
def outdegW (g : Graph) (v : String) : ℚ :=
  ((g.edges.filter (fun e => e.father = v)).map (fun e => e.weight)).sum


/-- `indegree_centrality`: guarded by `if num_incoming_nodes > 0`, so the
division by `g_len - 1` raises only when some node has positive weighted
in-degree on a one-node graph. -/
def indegreeCentrality (g : Graph) : Except String (List (String × ℚ)) :=
  if g.nodes.length = 1 ∧ ∃ v ∈ g.nodes, 0 < indegW g v then
    Except.error "ZeroDivisionError: division by zero"
  else
    Except.ok (g.nodes.map (fun v =>
      (v, if 0 < indegW g v then indegW g v / ((g.nodes.length : ℚ) - 1)
        else 0)))


/-- `outdegree_centrality`, with the same guard on the out-degree. -/
def outdegreeCentrality (g : Graph) : Except String (List (String × ℚ)) :=
  if g.nodes.length = 1 ∧ ∃ v ∈ g.nodes, 0 < outdegW g v then
    Except.error "ZeroDivisionError: division by zero"
  else
    Except.ok (g.nodes.map (fun v =>
      (v, if 0 < outdegW g v then outdegW g v / ((g.nodes.length : ℚ) - 1)
        else 0)))


/-- `degree_centrality`: unguarded division by `g_len - 1`, raising whenever
the loop runs on a one-node graph. -/
def degreeCentrality (g : Graph) : Except String (List (String × ℚ)) :=
  if g.nodes.length = 1 then
    Except.error "ZeroDivisionError: division by zero"
  else
    Except.ok (g.nodes.map (fun v =>
      (v, (indegW g v + outdegW g v) / ((g.nodes.length : ℚ) - 1))))


/-- `1 / oshpl` on a Python float: `inf` gives `0.0` (the zero case raises and
is handled by the callers). -/
def invQ (l : WithTop ℚ) : ℚ :=
  if l = ⊤ then 0 else 1 / l.untop' 1


/-- The `NO_PATH` row of `check_before`. -/
def mkNoPathRowO (ii jj : String) : SRow :=
  { src := ii, tgt := jj, ids := ii ++ jj,
    origSPL := some RVal.noPath, origSP := some RVal.noPath,
    origSIP := some RVal.noPath, origEff := some RVal.noPath }


/-- One `check_before` row for the SOURCE `ii` and USER `jj` (`self.Mark` maps
every node to itself, so the key lookup through `self.Mark` is the identity).
A missing `shortest_path`/`shpath_length` entry raises `KeyError`, and
`oeff = 1 / oshpl` raises on a zero length. -/
def mkOrigRow (g : Graph) (T : APSPTables) (ii jj : String) :
    Except String SRow :=
  if ii ∈ g.nodes ∧ jj ∈ g.nodes then
    if hasPathB g (idxOf g ii) (idxOf g jj) then
      match T.sp ii jj, T.lenT ii jj with
      | some shp, some shpl =>
        if shpl = 0 then
          Except.error "ZeroDivisionError: float division by zero"
        else
          Except.ok
            { src := ii, tgt := jj, ids := ii ++ jj,
              origSPL := some (RVal.num shpl), origSP := some (RVal.path shp),
              origSIP := some (RVal.paths
                (allSimplePaths g (idxOf g ii) (idxOf g jj))),
              origEff := some (RVal.rat (invQ shpl)) }
      | _, _ => Except.error "KeyError"
    else Except.ok (mkNoPathRowO ii jj)
  else Except.ok (mkNoPathRowO ii jj)


/-- The `lst0` rows of `check_before`: one row per (SOURCE, USER) pair, in
loop order. -/
def checkBeforeRows (g : Graph) (T : APSPTables) (srcs users : List String) :
    Except String (List SRow) :=
  (srcs.flatMap (fun ii => users.map (fun jj => (ii, jj)))).foldlM
    (fun acc pr => do
      let r ← mkOrigRow g T pr.1 pr.2
      Except.ok (acc ++ [r]))
    []


/-- Python `dict` lookup. -/
def dictGet (d : List (String × String)) (k : String) : Option String :=
  (d.find? (fun kv => kv.1 = k)).map (fun kv => kv.2)


/-- The valve re-opening pass of `check_after`: every valve node on some
simple path of the pair that is currently closed — `newstatus[v] == "0"`, or
`status[v] == "0"` when `v` has no `newstatus` entry — gets
`finalstatus[v] = "1"`. -/
def reconValves (pd : PlantData) (newstatus : List (String × String))
    (finalstatus : List (String × String)) (sip : List (List String)) :
    List (String × String) :=
  (dedupFirst (sip.flatMap (fun l => l))).foldl
    (fun fs node =>
      if isValve pd node then
        match dictGet newstatus node with
        | some s => if s = "0" then dictSet fs node "1" else fs
        | none => if pd.status node = "0" then dictSet fs node "1" else fs
      else fs)
    finalstatus


/-- The `NO_PATH` row of `check_after`. -/
def mkNoPathRowF (pd : PlantData) (nn dd : String) : SRow :=
  { src := nn, tgt := dd, ids := nn ++ dd, area := some (pd.areaOf nn),
    finSPL := some RVal.noPath, finSP := some RVal.noPath,
    finSIP := some RVal.noPath, finEff := some RVal.noPath }


/-- One `check_after` row, together with the updated `finalstatus`. -/
def mkFinalRow (g : Graph) (pd : PlantData) (T : APSPTables)
    (newstatus finalstatus : List (String × String)) (nn dd : String) :
    Except String (SRow × List (String × String)) :=
  if nn ∈ g.nodes ∧ dd ∈ g.nodes then
    if hasPathB g (idxOf g nn) (idxOf g dd) then
      let sip := allSimplePaths g (idxOf g nn) (idxOf g dd)
      let fs := reconValves pd newstatus finalstatus sip
      match T.sp nn dd, T.lenT nn dd with
      | some shp, some shpl =>
        if shpl = 0 then
          Except.error "ZeroDivisionError: float division by zero"
        else
          Except.ok
            ({ src := nn, tgt := dd, ids := nn ++ dd,
               area := some (pd.areaOf nn),
               finSPL := some (RVal.num shpl), finSP := some (RVal.path shp),
               finSIP := some (RVal.paths sip),
               finEff := some (RVal.rat (invQ shpl)) }, fs)
      | _, _ => Except.error "KeyError"
    else Except.ok (mkNoPathRowF pd nn dd, finalstatus)
  else Except.ok (mkNoPathRowF pd nn dd, finalstatus)


/-- The `lst` rows of `check_after`, threading `finalstatus` through the
pair loop. -/
def checkAfterRows (g : Graph) (pd : PlantData) (T : APSPTables)
    (newstatus finalstatus : List (String × String))
    (srcs users : List String) :
    Except String (List SRow × List (String × String)) :=
  (srcs.flatMap (fun nn => users.map (fun dd => (nn, dd)))).foldlM
    (fun acc pr => do
      let r ← mkFinalRow g pd T newstatus acc.2 pr.1 pr.2
      Except.ok (acc.1 ++ [r.1], r.2))
    ([], finalstatus)


/-- The orchestrator state: the live graph, the static maps captured by
`load` (`self.area`, `self.FR`, `self.D`, `self.status`, `self.Type`,
`self.Mark` are all keyed by the loaded nodes), the `services_*` lists, the
cascade dictionaries, the two row lists, the snapshot `copy_of_self1`, and the
string-valued attribute writes applied to the snapshot (the numeric
indicator attributes are recomputed by the calculators and are not read by
any of the orchestration decisions, so the store keeps the status/marking
fields the result tables are keyed on). -/
structure GState where
  live : Graph
  pd : PlantData
  loadedNodes : List String
  servicesSOURCE : List String
  servicesUSER : List String
  broken : List (String × String)
  newstatus : List (String × String)
  finalstatus : List (String × String)
  lst0 : List SRow
  lst : List SRow
  snapshot : Graph
  snapAttrs : List (String × String × String)


/-- `update_status(which_status, field, already_updated)`: with a non-empty
dict, the entries outside `already_updated` are written onto the snapshot and
every other snapshot node gets the blank `" "`; with an empty dict every
snapshot node gets the blank. -/
def updateStatus (st : GState) (which : List (String × String))
    (field : String) (already : List String) : GState :=
  if which = [] then
    { st with
      snapAttrs := st.snapAttrs ++
        st.snapshot.nodes.map (fun n => (field, n, " ")) }
  else
    let filtered := which.filter (fun kv => kv.1 ∉ already)
    { st with
      snapAttrs := st.snapAttrs ++
        filtered.map (fun kv => (field, kv.1, kv.2)) ++
        (st.snapshot.nodes.filter
          (fun n => ¬ filtered.any (fun kv => kv.1 = n))).map
          (fun n => (field, n, " ")) }


/-- Read the last write of a snapshot attribute. -/
def readAttr (attrs : List (String × String × String)) (field m : String) :
    Option String :=
  (attrs.reverse.find? (fun t => t.1 = field ∧ t.2.1 = m)).map
    (fun t => t.2.2)


/-- The graph-characterization table rows (Mark, IntermediateStatus,
FinalStatus, Mark_Status, Status_Area); the remaining columns repeat the
calculator outputs. -/
def charTable (st : GState) : List (String × String × String × String × String) :=
  st.snapshot.nodes.map (fun m =>
    (m, (readAttr st.snapAttrs "IntermediateStatus" m).getD "",
      (readAttr st.snapAttrs "FinalStatus" m).getD "",
      (readAttr st.snapAttrs "Mark_Status" m).getD "",
      (readAttr st.snapAttrs "Status_Area" m).getD ""))


/-- `check_before`: APSP, `nodal_eff`, `global_eff`, `local_eff`, then the
`lst0` service rows. -/
def checkBefore (st : GState) : Except String GState := do
  let T := calculateShortestPath st.live
  let ne ← nodalEff st.live.nodes T.eff
  let _ ← globalEff st.live.nodes ne
  let _ := localEff st.live ne
  let rows ← checkBeforeRows st.live T st.servicesSOURCE st.servicesUSER
  Except.ok { st with lst0 := rows }


/-- `check_after`: APSP and the indicator recomputation on the reduced live
graph (blank `final_nodal_eff` sentinels are written for deleted snapshot
nodes before the division, but the Except embedding drops partial writes on
the error path), then the `lst` service rows with valve reconciliation. -/
def checkAfter (st : GState) : Except String GState := do
  let T := calculateShortestPath st.live
  let ne ← nodalEff st.live.nodes T.eff
  let _ ← globalEff st.live.nodes ne
  let _ := localEff st.live ne
  let st' :=
    { st with
      snapAttrs := st.snapAttrs ++
        (st.snapshot.nodes.filter (fun m => m ∉ st.live.nodes)).map
          (fun m => ("final_nodal_eff", m, " ")) }
  let rowsFs ← checkAfterRows st'.live st'.pd T st'.newstatus st'.finalstatus
    st'.servicesSOURCE st'.servicesUSER
  Except.ok { st' with lst := st'.lst ++ rowsFs.1, finalstatus := rowsFs.2 }


/-- `remove_node`: drop the node and its incident edges. -/
def removeNode (g : Graph) (m : String) : Graph :=
  ⟨g.nodes.filter (fun x => x ≠ m),
   g.edges.filter (fun e => e.father ≠ m ∧ e.child ≠ m)⟩


/-- Remove every broken node from the live graph. -/
def removeNodes (g : Graph) (bn : List String) : Graph :=
  bn.foldl removeNode g


/-- The two result tables: the service-paths rows and the
graph-characterization rows. -/
def Tables : Type :=
  List SRow × List (String × String × String × String × String)


/-- `delete_a_node(node)`: on a present node, `check_before`, the five
centralities, `copy_of_self1 = deepcopy(self)`, the cascade, removal of the
broken set, `check_after`, the service-paths table, the two `update_status`
passes (skipping the broken nodes), the `Mark_Status`/`Status_Area` loop, and
the characterization table.  On an absent node only the two `print`
diagnostics run: the state is returned unchanged and no table is produced. -/
def deleteANode (st : GState) (node : String) :
    Except String (GState × Option Tables) :=
  if node ∈ st.live.nodes then do
    let st₁ ← checkBefore st
    let T := calculateShortestPath st₁.live
    let _ ← closenessCentrality st₁.live.nodes T.spList T.lenT
    let _ ← betweennessCentrality st₁.live.nodes T.spList
    let _ ← indegreeCentrality st₁.live
    let _ ← outdegreeCentrality st₁.live
    let _ ← degreeCentrality st₁.live
    let st₂ := { st₁ with snapshot := st₁.live, snapAttrs := [] }
    let cs := rmNodes st₂.live st₂.pd (st₂.live.nodes.length + 1) node
      ⟨st₂.broken, st₂.newstatus, []⟩
    let bn := bnOf cs.broken
    let st₃ := { st₂ with
      live := removeNodes st₂.live bn,
      broken := cs.broken, newstatus := cs.newstatus, lst := [] }
    let st₄ ← checkAfter st₃
    let srows := mergeLists st₄.lst0 st₄.lst
    let st₅ := updateStatus st₄ st₄.newstatus "IntermediateStatus" bn
    let st₆ := updateStatus st₅ st₅.finalstatus "FinalStatus" bn
    let st₇ := { st₆ with
      snapAttrs := st₆.snapAttrs ++
        st₆.snapshot.nodes.flatMap (fun m =>
          [("Mark_Status", m,
            if m ∈ bn then "NOT_ACTIVE" else "ACTIVE"),
           ("Status_Area", m, "AVAILABLE")]) }
    Except.ok (st₇, some (srows, charTable st₇))
  else
    Except.ok (st, none)


/-- The cascade loop of `simulate_multi_area_perturbation` over the failing
nodes (the Python `for` iterates the originally built list: the rebinding of
`FV_nodes_in_area` inside the body does not change the frozen iterator, and
the membership guard skips nodes already removed). -/
def simulateCascade : List String → GState → GState
  | [], st => st
  | node :: fv, st =>
    let stx : GState := { st with broken := [] }
    let stx' : GState :=
      if node ∈ stx.live.nodes then
        let cs := rmNodes stx.live stx.pd (stx.live.nodes.length + 1) node
          ⟨stx.broken, stx.newstatus, []⟩
        { stx with
          live := removeNodes stx.live (bnOf cs.broken),
          broken := cs.broken, newstatus := cs.newstatus }
      else stx
    simulateCascade fv stx'


/-- `simulate_multi_area_perturbation(multi_areas)`: area validation
(`sys.exit()` on an unknown area), `check_before`, three centralities (no
out-degree or total-degree pass here), the snapshot, the per-node cascades
over the non-resistant nodes of the areas, `check_after`, the service-paths
table, `update_areas`, and the characterization table. -/
def simulateMultiArea (st : GState) (multiAreas : List String) :
    Except String (GState × Option Tables) :=
  if multiAreas.any (fun a => a ∉ st.loadedNodes.map st.pd.areaOf) then
    Except.error "SystemExit"
  else
    let nodesInArea := multiAreas.flatMap (fun a =>
      st.loadedNodes.filter (fun id => st.pd.areaOf id = a))
    do
      let st₁ ← checkBefore st
      let T := calculateShortestPath st₁.live
      let _ ← closenessCentrality st₁.live.nodes T.spList T.lenT
      let _ ← betweennessCentrality st₁.live.nodes T.spList
      let _ ← indegreeCentrality st₁.live
      let st₂ := { st₁ with snapshot := st₁.live, snapAttrs := [] }
      let frNodes := st₂.loadedNodes.filter (fun id => st₂.pd.resist id = "1")
      let fv := dedupFirst (nodesInArea.filter (fun x => x ∉ frNodes))
      let st₃ := simulateCascade fv st₂
      let st₄ := { st₃ with lst := [] }
      let st₅ ← checkAfter st₄
      let srows := mergeLists st₅.lst0 st₅.lst
      let st₆ := updateStatus st₅ st₅.newstatus "IntermediateStatus" nodesInArea
      let st₇ := updateStatus st₆ st₆.finalstatus "FinalStatus" nodesInArea
      let st₈ := { st₇ with
        snapAttrs := st₇.snapAttrs ++
          st₇.snapshot.nodes.flatMap (fun m =>
            [("Mark_Status", m,
              if m ∈ st₇.live.nodes then "ACTIVE" else "NOT_ACTIVE"),
             ("Status_Area", m,
              if st₇.pd.areaOf m ∈ multiAreas then "DAMAGED"
              else "AVAILABLE")]) }
      Except.ok (st₈, some (srows, charTable st₈))


/-- The loaded orchestrator state for the S2 graph (A, B sources, C user). -/
def stS2 : GState :=
  { live := gS2, pd := pdS2, loadedNodes := gS2.nodes,
    servicesSOURCE := ["A", "B"], servicesUSER := ["C"],
    broken := [], newstatus := [], finalstatus := [], lst0 := [], lst := [],
    snapshot := gS2, snapAttrs := [] }


/-- S2 node attributes with `A` in area `a1` and `B`, `C` in area `a2`. -/
def pdSim : PlantData :=
  ⟨fun _ => "generic", fun _ => "1",
   fun m => if m = "A" then "a1" else "a2", fun _ => "0",
   fun m => if m = "C" then "USER" else "SOURCE"⟩


/-- The loaded state for the two-area variant of S2. -/
def stSim : GState :=
  { live := gS2, pd := pdSim, loadedNodes := gS2.nodes,
    servicesSOURCE := ["A", "B"], servicesUSER := ["C"],
    broken := [], newstatus := [], finalstatus := [], lst0 := [], lst := [],
    snapshot := gS2, snapAttrs := [] }


/-- A one-node orchestrator state. -/
def stOne : GState :=
  { live := ⟨["X"], []⟩, pd := pdS2, loadedNodes := ["X"],
    servicesSOURCE := [], servicesUSER := [],
    broken := [], newstatus := [], finalstatus := [], lst0 := [], lst := [],
    snapshot := ⟨["X"], []⟩, snapAttrs := [] }


/-! ### Key collapsing in `merge_lists` -/

/-- The key list built by folding rows into the `merged` dict: each id is
appended on first sight and ignored afterwards. -/
def keyFold (ks : List String) (ids : List String) : List String :=
  ids.foldl (fun acc i => if i ∈ acc then acc else acc ++ [i]) ks


/-- A graph whose service marks collide under concatenation:
`"A" ++ "BC" = "AB" ++ "C"`. -/
def gC10 : Graph :=
  ⟨["A", "AB", "BC", "C"], [⟨"A", "BC", "SINGLE", 1⟩, ⟨"AB", "C", "SINGLE", 1⟩]⟩


/-- Node attributes for `gC10`: no valves, `A` and `AB` are SOURCEs. -/
def pdC10 : PlantData :=
  ⟨fun _ => "generic", fun _ => "1", fun _ => "a", fun _ => "0",
   fun m => if m = "A" ∨ m = "AB" then "SOURCE" else "USER"⟩


/-- The loaded orchestrator state for `gC10`. -/
def stC10 : GState :=
  { live := gC10, pd := pdC10, loadedNodes := gC10.nodes,
    servicesSOURCE := ["A", "AB"], servicesUSER := ["BC", "C"],
    broken := [], newstatus := [], finalstatus := [], lst0 := [], lst := [],
    snapshot := gC10, snapAttrs := [] }


/-- A `lst0`-style row for the pair `(A, BC)`. -/
def rowA_BC : SRow :=
  { src := "A", tgt := "BC", ids := "A" ++ "BC" }


/-- A `lst0`-style row for the pair `(AB, C)`. -/
def rowAB_C : SRow :=
  { src := "AB", tgt := "C", ids := "AB" ++ "C" }


/-- C1: in `rm_nodes`, a visited non-valve node `v` is marked broken when the
representative of its condition set (or `{SINGLE}` with no predecessors) is not
`OR`; with representative `OR` it is marked broken exactly when it is the
cascade origin (visited set of size 1) or all its predecessors are already
broken, and otherwise it survives and the traversal does not descend into its
successors.  In particular on `A→C`, `B→C` (both `OR`), the cascade from `A`
leaves `broken = {A}` and `C` alive. -/
theorem C1_rm_nodes_nonvalve_rule :
    (∀ (g : Graph) (pd : PlantData) (node : String) (cs : CState) (f : ℕ),
      ¬ isValve pd node →
      (condRep g node ≠ "OR" →
        rmProcess g pd node cs =
          (⟨cs.broken ++ [(node, "NULL")], cs.newstatus, visitAdd cs.visited node⟩, true)) ∧
      (condRep g node = "OR" → (visitAdd cs.visited node).length = 1 →
        rmProcess g pd node cs =
          (⟨cs.broken ++ [(node, "NULL")], cs.newstatus, visitAdd cs.visited node⟩, true)) ∧
      (condRep g node = "OR" → (visitAdd cs.visited node).length ≠ 1 →
        (predecessors g node).length - brokenCount cs.broken (predecessors g node) = 0 →
        rmProcess g pd node cs =
          (⟨cs.broken ++ [(node, "NULL")], cs.newstatus, visitAdd cs.visited node⟩, true)) ∧
      (condRep g node = "OR" → (visitAdd cs.visited node).length ≠ 1 →
        (predecessors g node).length - brokenCount cs.broken (predecessors g node) ≠ 0 →
        rmProcess g pd node cs = (⟨cs.broken, cs.newstatus, visitAdd cs.visited node⟩, false) ∧
        rmNodes g pd (f + 1) node cs = ⟨cs.broken, cs.newstatus, visitAdd cs.visited node⟩)) ∧
    (rmNodes gS2 pdS2 3 "A" ⟨[], [], []⟩).broken = [("A", "NULL")] ∧
    "C" ∉ bnOf (rmNodes gS2 pdS2 3 "A" ⟨[], [], []⟩).broken := by
  refine ⟨?_, by decide, by decide⟩
  intro g pd node cs f hval
  refine ⟨?_, ?_, ?_, ?_⟩
  · intro hrep
    simp only [rmProcess, if_neg hval, if_pos hrep]
  · intro hrep hlen
    simp only [rmProcess, if_neg hval]
    rw [if_neg (by simp [hrep]), if_pos hlen]
  · intro hrep hlen hcnt
    simp only [rmProcess, if_neg hval]
    rw [if_neg (by simp [hrep]), if_neg hlen, if_pos hcnt]
  · intro hrep hlen hcnt
    have hp : rmProcess g pd node cs =
        (⟨cs.broken, cs.newstatus, visitAdd cs.visited node⟩, false) := by
      simp only [rmProcess, if_neg hval]
      rw [if_neg (by simp [hrep]), if_neg hlen, if_neg hcnt]
    refine ⟨hp, ?_⟩
    simp only [rmNodes, hp]
    rfl


/-- C1 witness: the general part of `C1_rm_nodes_nonvalve_rule` applied to the
`OR`-joined node `C` of scenario S2 with `A` broken and `B` alive: `C` survives
and the cascade does not descend. -/
theorem C1_rm_nodes_nonvalve_rule_witness :
    rmProcess gS2 pdS2 "C" ⟨[("A", "NULL")], [], ["A"]⟩ =
      (⟨[("A", "NULL")], [], ["A", "C"]⟩, false) := by
  have h := (C1_rm_nodes_nonvalve_rule.1 gS2 pdS2 "C"
      ⟨[("A", "NULL")], [], ["A"]⟩ 1 (by decide)).2.2.2
      (by decide) (by decide) (by decide)
  exact h.1


/-- C2: in `rm_nodes`, a visited valve node `v` records `newstatus[v] = "0"`
when its status is `"1"` and records nothing when it is `"0"`; it is appended
to the broken set only as cascade origin, and a non-origin valve makes the call
return without descending into `v`'s successors, so downstream nodes are not
broken through it.  Concretely, on `S → V → U` with valve `V` (status `"1"`),
the cascade from `S` breaks only `S`, closes `V`, and never visits `U`. -/
theorem C2_rm_nodes_valve_rule :
    (∀ (g : Graph) (pd : PlantData) (node : String) (cs : CState) (f : ℕ),
      isValve pd node →
      (pd.status node = "1" →
        (rmProcess g pd node cs).1.newstatus = dictSet cs.newstatus node "0") ∧
      (pd.status node = "0" →
        (rmProcess g pd node cs).1.newstatus = cs.newstatus) ∧
      ((visitAdd cs.visited node).length = 1 →
        (rmProcess g pd node cs).1.broken = cs.broken ++ [(node, "NULL")] ∧
        (rmProcess g pd node cs).2 = true) ∧
      ((visitAdd cs.visited node).length ≠ 1 →
        (rmProcess g pd node cs).1.broken = cs.broken ∧
        (rmProcess g pd node cs).2 = false ∧
        rmNodes g pd (f + 1) node cs = (rmProcess g pd node cs).1)) ∧
    (rmNodes gS4 pdS4 3 "S" ⟨[], [], []⟩).broken = [("S", "NULL")] ∧
    (rmNodes gS4 pdS4 3 "S" ⟨[], [], []⟩).newstatus = [("V", "0")] ∧
    "U" ∉ bnOf (rmNodes gS4 pdS4 3 "S" ⟨[], [], []⟩).broken ∧
    "U" ∉ (rmNodes gS4 pdS4 3 "S" ⟨[], [], []⟩).visited := by
  refine ⟨?_, by decide, by decide, by decide, by decide⟩
  intro g pd node cs f hval
  refine ⟨?_, ?_, ?_, ?_⟩
  · intro hst
    simp only [rmProcess, if_pos hval, if_pos hst]
    split <;> rfl
  · intro hst
    have hst1 : ¬ pd.status node = "1" := by simp [hst]
    simp only [rmProcess, if_pos hval, if_neg hst1]
    split <;> rfl
  · intro hlen
    constructor <;>
    · simp only [rmProcess, if_pos hval]
      split <;> simp_all
  · intro hlen
    have h2 : (rmProcess g pd node cs).2 = false := by
      simp only [rmProcess, if_pos hval]
      split <;> simp_all
    refine ⟨?_, h2, ?_⟩
    · simp only [rmProcess, if_pos hval]
      split <;> simp_all
    · simp only [rmNodes, h2]
      simp


/-- C2 witness: the general part of `C2_rm_nodes_valve_rule` applied to the
non-origin valve `V` of scenario S4: its status flips to `"0"`, it is not
broken, and the call returns without descending. -/
theorem C2_rm_nodes_valve_rule_witness :
    (rmProcess gS4 pdS4 "V" ⟨[("S", "NULL")], [], ["S"]⟩).1.newstatus =
      dictSet [] "V" "0" ∧
    (rmProcess gS4 pdS4 "V" ⟨[("S", "NULL")], [], ["S"]⟩).1.broken =
      [("S", "NULL")] ∧
    (rmProcess gS4 pdS4 "V" ⟨[("S", "NULL")], [], ["S"]⟩).2 = false := by
  have h := C2_rm_nodes_valve_rule.1 gS4 pdS4 "V"
    ⟨[("S", "NULL")], [], ["S"]⟩ 1 (by decide)
  exact ⟨h.1 (by decide), (h.2.2.2 (by decide)).1, (h.2.2.2 (by decide)).2.1⟩


/-! ### Correctness of the serial Floyd–Warshall back-end -/

theorem wt_lt_add_of_pos {a b : WithTop ℚ} (ha : a ≠ ⊤) (hb : 0 < b) :
    a < a + b := by
  lift a to ℚ using ha
  cases b with
  | top => simp
  | coe q =>
    rw [← WithTop.coe_add, WithTop.coe_lt_coe]
    have hq : (0 : ℚ) < q := by exact_mod_cast hb
    linarith


theorem adjW_mem {g : Graph} {i j : ℕ} {q : ℚ} (h : adjW g i j = some q) :
    ∃ e ∈ g.edges, e.weight = q := by
  unfold adjW at h
  cases hf : g.edges.find? (fun e => e.father = markOf g i ∧ e.child = markOf g j) with
  | none => rw [hf] at h; simp at h
  | some e =>
    rw [hf] at h
    simp only [Option.map_some', Option.some.injEq] at h
    exact ⟨e, List.mem_of_find?_eq_some hf, h⟩


theorem dist0_diag (g : Graph) (i : ℕ) : dist0 g i i = 0 := by
  simp [dist0]


theorem dist0_none {g : Graph} {i j : ℕ} (hne : i ≠ j) (h : adjW g i j = none) :
    dist0 g i j = ⊤ := by
  unfold dist0; rw [if_neg hne, h]


theorem dist0_some {g : Graph} {i j : ℕ} {q : ℚ} (hne : i ≠ j)
    (h : adjW g i j = some q) :
    dist0 g i j = if q = 0 then ⊤ else (q : WithTop ℚ) := by
  unfold dist0; rw [if_neg hne, h]


theorem ewT_none {g : Graph} {i j : ℕ} (h : adjW g i j = none) :
    ewT g i j = ⊤ := by
  unfold ewT; rw [h]


theorem ewT_some {g : Graph} {i j : ℕ} {q : ℚ} (h : adjW g i j = some q) :
    ewT g i j = (q : WithTop ℚ) := by
  unfold ewT; rw [h]


theorem dist0_nonneg {g : Graph} (hw : ∀ e ∈ g.edges, 0 ≤ e.weight) (i j : ℕ) :
    0 ≤ dist0 g i j := by
  by_cases hne : i = j
  · rw [hne, dist0_diag]
  · cases hq : adjW g i j with
    | none => rw [dist0_none hne hq]; exact le_top
    | some q =>
      obtain ⟨e, he, hew⟩ := adjW_mem hq
      have h0 : (0 : ℚ) ≤ q := hew ▸ hw e he
      rw [dist0_some hne hq]
      split
      · exact le_top
      · exact_mod_cast h0


theorem dist0_pos {g : Graph} (hp : ∀ e ∈ g.edges, 0 < e.weight) {i j : ℕ}
    (hne : i ≠ j) (ht : dist0 g i j ≠ ⊤) : 0 < dist0 g i j := by
  cases hq : adjW g i j with
  | none => exact absurd (dist0_none hne hq) ht
  | some q =>
    obtain ⟨e, he, hew⟩ := adjW_mem hq
    have h0 : (0 : ℚ) < q := hew ▸ hp e he
    rw [dist0_some hne hq, if_neg (by positivity)]
    exact_mod_cast h0


theorem dist0_ne_top_iff {g : Graph} (hp : ∀ e ∈ g.edges, 0 < e.weight)
    {i j : ℕ} (hne : i ≠ j) : dist0 g i j ≠ ⊤ ↔ (adjW g i j).isSome := by
  cases hq : adjW g i j with
  | none => simp [dist0_none hne hq]
  | some q =>
    obtain ⟨e, he, hew⟩ := adjW_mem hq
    have h0 : (0 : ℚ) < q := hew ▸ hp e he
    rw [dist0_some hne hq, if_neg (by positivity)]
    simp [WithTop.coe_ne_top]


theorem fwD_nonneg {g : Graph} (hw : ∀ e ∈ g.edges, 0 ≤ e.weight) :
    ∀ (k i j : ℕ), 0 ≤ fwD g k i j
  | 0, i, j => dist0_nonneg hw i j
  | (k + 1), i, j =>
    le_min (fwD_nonneg hw k i j)
      (add_nonneg (fwD_nonneg hw k i k) (fwD_nonneg hw k k j))


theorem fwD_diag {g : Graph} (hw : ∀ e ∈ g.edges, 0 ≤ e.weight) :
    ∀ (k i : ℕ), fwD g k i i = 0
  | 0, i => dist0_diag g i
  | (k + 1), i => by
    show min (fwD g k i i) (fwD g k i k + fwD g k k i) = 0
    rw [fwD_diag hw k i]
    exact min_eq_left (add_nonneg (fwD_nonneg hw k i k) (fwD_nonneg hw k k i))


theorem fwD_mono {g : Graph} (k i j : ℕ) : fwD g (k + 1) i j ≤ fwD g k i j :=
  min_le_left _ _


theorem lw_append (w : ℕ → ℕ → WithTop ℚ) (a : ℕ) (q : List ℕ) :
    ∀ p : List ℕ, lw w (p ++ a :: q) = lw w (p ++ [a]) + lw w (a :: q)
  | [] => by simp [lw]
  | [b] => by simp [lw, add_assoc]
  | b :: c :: p => by
    have ih := lw_append w a q (c :: p)
    show w b c + lw w ((c :: p) ++ a :: q) =
      w b c + lw w ((c :: p) ++ [a]) + lw w (a :: q)
    rw [ih, add_assoc]


theorem lw_nonneg {w : ℕ → ℕ → WithTop ℚ} (hw : ∀ i j, 0 ≤ w i j) :
    ∀ p : List ℕ, 0 ≤ lw w p
  | [] => le_refl _
  | [_] => le_refl _
  | a :: b :: r => add_nonneg (hw a b) (lw_nonneg hw (b :: r))


theorem walk_decomp {p : List ℕ} {i j : ℕ} (hh : p.head? = some i)
    (hl : p.getLast? = some j) :
    (p = [i] ∧ i = j) ∨ p = i :: wInterior p ++ [j] := by
  match p with
  | [] => simp at hh
  | [a] =>
    simp only [List.head?_cons, Option.some_inj] at hh
    have : ([a] : List ℕ).getLast? = some a := by simp
    rw [this, Option.some_inj] at hl
    exact Or.inl ⟨by rw [hh], by rw [← hh, ← hl]⟩
  | a :: b :: r =>
    right
    simp only [List.head?_cons, Option.some_inj] at hh
    have hne : (b :: r) ≠ [] := by simp
    have h1 : (a :: b :: r).getLast? = (b :: r).getLast? :=
      List.getLast?_cons_cons
    have h2 : (b :: r).getLast? = some ((b :: r).getLast hne) :=
      List.getLast?_eq_getLast _ hne
    rw [h1, h2, Option.some_inj] at hl
    have h3 : (b :: r).dropLast ++ [(b :: r).getLast hne] = b :: r :=
      List.dropLast_append_getLast hne
    have h4 : wInterior (a :: b :: r) = (b :: r).dropLast := rfl
    rw [h4, ← hh, ← hl]
    exact congrArg (a :: ·) h3.symm


theorem dup_decomp : ∀ {p : List ℕ}, ¬ p.Nodup →
    ∃ (x : List ℕ) (a : ℕ) (y z : List ℕ), p = x ++ a :: (y ++ a :: z)
  | [], h => absurd List.nodup_nil h
  | b :: t, h => by
    by_cases hb : b ∈ t
    · obtain ⟨y, z, hyz⟩ := List.append_of_mem hb
      exact ⟨[], b, y, z, by rw [hyz]; rfl⟩
    · have ht : ¬ t.Nodup := fun hn => h (List.nodup_cons.mpr ⟨hb, hn⟩)
      obtain ⟨x, a, y, z, hx⟩ := dup_decomp ht
      exact ⟨b :: x, a, y, z, by rw [hx]; rfl⟩


theorem walk_shrink {w : ℕ → ℕ → WithTop ℚ} (hw : ∀ i j, 0 ≤ w i j) :
    ∀ (n : ℕ) (p : List ℕ), p.length ≤ n →
    ∃ q : List ℕ, q.Nodup ∧ q.head? = p.head? ∧ q.getLast? = p.getLast? ∧
      (∀ v ∈ q, v ∈ p) ∧ lw w q ≤ lw w p := by
  intro n
  induction n with
  | zero =>
    intro p hp
    have : p = [] := List.eq_nil_of_length_eq_zero (Nat.le_zero.mp hp)
    exact ⟨p, by simp [this], rfl, rfl, fun v hv => hv, le_refl _⟩
  | succ n ih =>
    intro p hp
    by_cases hnd : p.Nodup
    · exact ⟨p, hnd, rfl, rfl, fun v hv => hv, le_refl _⟩
    · obtain ⟨x, a, y, z, hxz⟩ := dup_decomp hnd
      have hlen : (x ++ a :: z).length ≤ n := by
        rw [hxz] at hp; simp at hp ⊢; omega
      obtain ⟨q, hqnd, hqh, hql, hqm, hqw⟩ := ih (x ++ a :: z) hlen
      refine ⟨q, hqnd, ?_, ?_, ?_, ?_⟩
      · rw [hqh, hxz]
        cases x <;> simp
      · rw [hql, hxz]
        have h1 : x ++ a :: (y ++ a :: z) = (x ++ a :: y) ++ (a :: z) := by simp
        rw [h1, List.getLast?_append_of_ne_nil _ (by simp),
          List.getLast?_append_of_ne_nil _ (by simp : (a :: z) ≠ [])]
      · intro v hv
        have := hqm v hv
        rw [hxz]
        simp at this ⊢
        tauto
      · refine le_trans hqw ?_
        rw [hxz]
        have h1 : lw w (x ++ a :: (y ++ a :: z)) =
            lw w (x ++ [a]) + lw w (a :: (y ++ a :: z)) := lw_append w a _ x
        have h2 : lw w (a :: (y ++ a :: z)) =
            lw w ((a :: y) ++ [a]) + lw w (a :: z) := lw_append w a z (a :: y)
        have h3 : lw w (x ++ a :: z) = lw w (x ++ [a]) + lw w (a :: z) :=
          lw_append w a z x
        rw [h1, h2, h3]
        exact add_le_add_left (le_add_of_nonneg_left (lw_nonneg hw _)) _


theorem fw_le {g : Graph} (hw : ∀ e ∈ g.edges, 0 ≤ e.weight) :
    ∀ (k i j : ℕ) (p : List ℕ), p.head? = some i → p.getLast? = some j →
      (∀ v ∈ wInterior p, v < k) → (wInterior p).Nodup →
      fwD g k i j ≤ lw (dist0 g) p := by
  intro k
  induction k with
  | zero =>
    intro i j p hh hl hlt _
    have hint : wInterior p = [] :=
      List.eq_nil_iff_forall_not_mem.mpr
        (fun v hv => absurd (hlt v hv) (Nat.not_lt_zero v))
    rcases walk_decomp hh hl with ⟨hp, hij⟩ | hp
    · subst hij
      rw [hp]
      show dist0 g i i ≤ lw (dist0 g) [i]
      rw [dist0_diag]
      exact lw_nonneg (dist0_nonneg hw) [i]
    · rw [hp, hint]
      show dist0 g i j ≤ lw (dist0 g) [i, j]
      show dist0 g i j ≤ dist0 g i j + lw (dist0 g) [j]
      exact le_add_of_nonneg_right (le_refl _)
  | succ k ih =>
    intro i j p hh hl hlt hnd
    by_cases hk : k ∈ wInterior p
    · rcases walk_decomp hh hl with ⟨hp, _⟩ | hp
      · rw [hp] at hk
        simp [wInterior] at hk
      · obtain ⟨u, v, huv⟩ := List.append_of_mem hk
        rw [huv] at hnd
        rw [List.nodup_append] at hnd
        have hku : k ∉ u := fun hku => hnd.2.2 hku (List.mem_cons_self k v)
        have hkv : k ∉ v := (List.nodup_cons.mp hnd.2.1).1
        have hub : ∀ x ∈ u, x < k := by
          intro x hx
          have hx1 : x < k + 1 := hlt x (by rw [huv]; simp [hx])
          have hx2 : x ≠ k := fun he => hku (he ▸ hx)
          omega
        have hvb : ∀ x ∈ v, x < k := by
          intro x hx
          have hx1 : x < k + 1 := hlt x (by rw [huv]; simp [hx])
          have hx2 : x ≠ k := fun he => hkv (he ▸ hx)
          omega
        have hps : p = (i :: u) ++ k :: (v ++ [j]) := by
          rw [hp, huv]; simp
        have hint1 : wInterior ((i :: u) ++ [k]) = u := by
          simp [wInterior, List.dropLast_concat]
        have hint2 : wInterior (k :: (v ++ [j])) = v := by
          simp [wInterior, List.dropLast_concat]
        have hw1 : fwD g k i k ≤ lw (dist0 g) ((i :: u) ++ [k]) := by
          apply ih i k _ (by cases u <;> simp) (List.getLast?_concat _)
          · rw [hint1]; exact hub
          · rw [hint1]; exact hnd.1
        have hw2 : fwD g k k j ≤ lw (dist0 g) (k :: (v ++ [j])) := by
          have hcast : k :: (v ++ [j]) = (k :: v) ++ [j] := rfl
          apply ih k j _ (by simp) (by rw [hcast]; exact List.getLast?_concat _)
          · rw [hint2]; exact hvb
          · rw [hint2]; exact (List.nodup_cons.mp hnd.2.1).2
        calc fwD g (k + 1) i j ≤ fwD g k i k + fwD g k k j := min_le_right _ _
          _ ≤ lw (dist0 g) ((i :: u) ++ [k]) + lw (dist0 g) (k :: (v ++ [j])) :=
              add_le_add hw1 hw2
          _ = lw (dist0 g) p := by rw [hps]; exact (lw_append (dist0 g) k (v ++ [j]) (i :: u)).symm
    · refine le_trans (fwD_mono k i j) (ih i j p hh hl ?_ hnd)
      intro x hx
      have hx1 : x < k + 1 := hlt x hx
      have hx2 : x ≠ k := fun he => hk (he ▸ hx)
      omega


theorem fw_exists {g : Graph} :
    ∀ (k i j : ℕ), fwD g k i j ≠ ⊤ →
    ∃ p : List ℕ,
      ((p = [i] ∧ i = j) ∨ ∃ m, (∀ v ∈ m, v < k) ∧ p = i :: m ++ [j]) ∧
      lw (dist0 g) p = fwD g k i j := by
  intro k
  induction k with
  | zero =>
    intro i j h
    by_cases hij : i = j
    · refine ⟨[i], Or.inl ⟨rfl, hij⟩, ?_⟩
      show (0 : WithTop ℚ) = fwD g 0 i j
      rw [hij]
      show (0 : WithTop ℚ) = dist0 g j j
      rw [dist0_diag]
    · refine ⟨[i, j], Or.inr ⟨[], by simp, rfl⟩, ?_⟩
      show dist0 g i j + lw (dist0 g) [j] = fwD g 0 i j
      show dist0 g i j + 0 = dist0 g i j
      rw [add_zero]
  | succ k ih =>
    intro i j h
    have hfw : fwD g (k + 1) i j = min (fwD g k i j) (fwD g k i k + fwD g k k j) := rfl
    by_cases hab : fwD g k i j ≤ fwD g k i k + fwD g k k j
    · rw [hfw, min_eq_left hab] at h ⊢
      obtain ⟨p, hs, hlw⟩ := ih i j h
      refine ⟨p, ?_, hlw⟩
      rcases hs with hl | ⟨m, hm, hp⟩
      · exact Or.inl hl
      · exact Or.inr ⟨m, fun v hv => Nat.lt_succ_of_lt (hm v hv), hp⟩
    · have hlt : fwD g k i k + fwD g k k j < fwD g k i j := not_le.mp hab
      rw [hfw, min_eq_right hlt.le] at h ⊢
      obtain ⟨hb, hc⟩ := WithTop.add_ne_top.mp h
      obtain ⟨p₁, hs₁, he₁⟩ := ih i k hb
      obtain ⟨p₂, hs₂, he₂⟩ := ih k j hc
      rcases hs₁ with ⟨hp₁, hik⟩ | ⟨m₁, hm₁, hp₁⟩ <;>
        rcases hs₂ with ⟨hp₂, hkj⟩ | ⟨m₂, hm₂, hp₂⟩
      · -- i = k and k = j
        refine ⟨[i], Or.inl ⟨rfl, hik.trans hkj⟩, ?_⟩
        rw [hp₁] at he₁
        rw [hp₂] at he₂
        show (0 : WithTop ℚ) = _
        rw [← he₁, ← he₂]
        show (0 : WithTop ℚ) = 0 + 0
        rw [add_zero]
      · -- i = k, p₂ = k :: m₂ ++ [j]
        refine ⟨i :: m₂ ++ [j], Or.inr ⟨m₂, fun v hv => Nat.lt_succ_of_lt (hm₂ v hv), rfl⟩, ?_⟩
        rw [hp₁] at he₁
        have h0 : (0 : WithTop ℚ) = fwD g k i k := he₁
        have : (i :: m₂ ++ [j]) = p₂ := by rw [hp₂, hik]
        rw [this, he₂, ← h0, zero_add]
      · -- k = j, p₁ = i :: m₁ ++ [k]
        refine ⟨i :: m₁ ++ [j], Or.inr ⟨m₁, fun v hv => Nat.lt_succ_of_lt (hm₁ v hv), rfl⟩, ?_⟩
        rw [hp₂] at he₂
        have h0 : (0 : WithTop ℚ) = fwD g k k j := he₂
        have : (i :: m₁ ++ [j]) = p₁ := by rw [hp₁, hkj]
        rw [this, he₁, ← h0, add_zero]
      · -- the generic concatenation
        refine ⟨i :: (m₁ ++ k :: m₂) ++ [j],
          Or.inr ⟨m₁ ++ k :: m₂, ?_, rfl⟩, ?_⟩
        · intro v hv
          rcases List.mem_append.mp hv with hv | hv
          · exact Nat.lt_succ_of_lt (hm₁ v hv)
          · rcases List.mem_cons.mp hv with hv | hv
            · omega
            · exact Nat.lt_succ_of_lt (hm₂ v hv)
        · have hq : i :: (m₁ ++ k :: m₂) ++ [j] = (i :: m₁) ++ k :: (m₂ ++ [j]) := by
            simp
          rw [hq, lw_append (dist0 g) k (m₂ ++ [j]) (i :: m₁)]
          have e1 : (i :: m₁) ++ [k] = p₁ := by rw [hp₁]
          have e2 : k :: (m₂ ++ [j]) = p₂ := by rw [hp₂]; rfl
          rw [e1, e2, he₁, he₂]


theorem mem_insertEverywhere {a : ℕ} :
    ∀ {x l : List ℕ}, l ∈ insertEverywhere a x ↔
      ∃ p q : List ℕ, x = p ++ q ∧ l = p ++ a :: q := by
  intro x
  induction x with
  | nil =>
    intro l
    show l ∈ [[a]] ↔ _
    simp only [List.mem_singleton]
    constructor
    · rintro rfl
      exact ⟨[], [], rfl, rfl⟩
    · rintro ⟨p, q, hpq, rfl⟩
      obtain ⟨rfl, rfl⟩ := List.append_eq_nil.mp hpq.symm
      rfl
  | cons b x ih =>
    intro l
    show l ∈ (a :: b :: x) :: (insertEverywhere a x).map (fun m => b :: m) ↔ _
    rw [List.mem_cons, List.mem_map]
    constructor
    · rintro (rfl | ⟨m, hm, rfl⟩)
      · exact ⟨[], b :: x, rfl, rfl⟩
      · obtain ⟨p, q, rfl, rfl⟩ := ih.mp hm
        exact ⟨b :: p, q, rfl, rfl⟩
    · rintro ⟨p, q, hpq, rfl⟩
      cases p with
      | nil =>
        left
        rw [List.nil_append] at hpq ⊢
        rw [← hpq]
      | cons c p =>
        right
        rw [List.cons_append] at hpq
        injection hpq with h1 h2
        subst h1
        exact ⟨p ++ a :: q, ih.mpr ⟨p, q, h2, rfl⟩, rfl⟩


theorem mem_permsR : ∀ {x l : List ℕ}, l ∈ permsR x ↔ l.Perm x := by
  intro x
  induction x with
  | nil =>
    intro l
    show l ∈ [[]] ↔ _
    simp only [List.mem_singleton, List.perm_nil]
  | cons a x ih =>
    intro l
    show l ∈ (permsR x).flatMap (insertEverywhere a) ↔ _
    rw [List.mem_flatMap]
    constructor
    · rintro ⟨m, hm, hl⟩
      obtain ⟨p, q, rfl, rfl⟩ := mem_insertEverywhere.mp hl
      exact List.Perm.trans List.perm_middle ((ih.mp hm).cons a)
    · intro hperm
      have ha : a ∈ l := hperm.mem_iff.mpr (List.mem_cons_self a x)
      obtain ⟨p, q, rfl⟩ := List.append_of_mem ha
      have hpq : (p ++ q).Perm x := by
        have h1 : (p ++ a :: q).Perm (a :: (p ++ q)) := List.perm_middle
        exact (h1.symm.trans hperm).cons_inv
      exact ⟨p ++ q, ih.mpr hpq, mem_insertEverywhere.mpr ⟨p, q, rfl, rfl⟩⟩


theorem mem_nodupLists {n : ℕ} {p : List ℕ} :
    p ∈ nodupLists n ↔ p.Nodup ∧ ∀ v ∈ p, v < n := by
  unfold nodupLists
  rw [List.mem_flatMap]
  constructor
  · rintro ⟨s, hs, hp⟩
    rw [List.mem_sublists] at hs
    rw [mem_permsR] at hp
    have hsnd : s.Nodup := hs.nodup (List.nodup_range n)
    refine ⟨hp.nodup_iff.mpr hsnd, fun v hv => ?_⟩
    exact List.mem_range.mp (hs.subset (hp.subset hv))
  · rintro ⟨hnd, hb⟩
    have hsub : p ⊆ List.range n := fun v hv => List.mem_range.mpr (hb v hv)
    obtain ⟨t, hperm, hsl⟩ := List.Nodup.subperm hnd hsub
    exact ⟨t, List.mem_sublists.mpr hsl, mem_permsR.mpr hperm.symm⟩


theorem mem_pathCands {n s t : ℕ} {p : List ℕ} :
    p ∈ pathCands n s t ↔
      (p.Nodup ∧ ∀ v ∈ p, v < n) ∧ p.head? = some s ∧ p.getLast? = some t := by
  unfold pathCands
  rw [List.mem_filter, mem_nodupLists]
  simp only [decide_eq_true_eq]


theorem foldr_min_le (f : List ℕ → WithTop ℚ) :
    ∀ (L : List (List ℕ)) (x : List ℕ), x ∈ L →
      L.foldr (fun p m => min (f p) m) ⊤ ≤ f x
  | [], x, hx => absurd hx (List.not_mem_nil x)
  | a :: L, x, hx => by
    rcases List.mem_cons.mp hx with h | h
    · subst h
      exact min_le_left _ _
    · exact le_trans (min_le_right _ _) (foldr_min_le f L x h)


theorem foldr_min_attain (f : List ℕ → WithTop ℚ) :
    ∀ L : List (List ℕ),
      L.foldr (fun p m => min (f p) m) ⊤ = ⊤ ∨
      ∃ x ∈ L, f x = L.foldr (fun p m => min (f p) m) ⊤
  | [] => Or.inl rfl
  | a :: L => by
    rcases foldr_min_attain f L with h | ⟨x, hx, hfx⟩
    · show _ ∨ ∃ x ∈ a :: L, f x = min (f a) (L.foldr _ ⊤)
      rw [h, min_eq_left le_top]
      exact Or.inr ⟨a, List.mem_cons_self a L, rfl⟩
    · show _ ∨ ∃ y ∈ a :: L, f y = min (f a) (L.foldr _ ⊤)
      rcases le_total (f a) (L.foldr (fun p m => min (f p) m) ⊤) with hle | hle
      · rw [min_eq_left hle]
        exact Or.inr ⟨a, List.mem_cons_self a L, rfl⟩
      · rw [min_eq_right hle]
        exact Or.inr ⟨x, List.mem_cons_of_mem a hx, hfx⟩


theorem sd_le {w : ℕ → ℕ → WithTop ℚ} {n s t : ℕ} {p : List ℕ}
    (hnd : p.Nodup) (hb : ∀ v ∈ p, v < n) (hh : p.head? = some s)
    (hl : p.getLast? = some t) : shortestDistW w n s t ≤ lw w p :=
  foldr_min_le _ _ _ (mem_pathCands.mpr ⟨⟨hnd, hb⟩, hh, hl⟩)


theorem sd_attain (w : ℕ → ℕ → WithTop ℚ) (n s t : ℕ) :
    shortestDistW w n s t = ⊤ ∨
    ∃ p : List ℕ, (p.Nodup ∧ ∀ v ∈ p, v < n) ∧ p.head? = some s ∧
      p.getLast? = some t ∧ lw w p = shortestDistW w n s t := by
  rcases foldr_min_attain (lw w) (pathCands n s t) with h | ⟨p, hp, hlw⟩
  · exact Or.inl h
  · obtain ⟨hnb, hh, hl⟩ := mem_pathCands.mp hp
    exact Or.inr ⟨p, hnb, hh, hl, hlw⟩


theorem fwD_eq_shortestDist {g : Graph} (hw : ∀ e ∈ g.edges, 0 ≤ e.weight)
    {i j : ℕ} (hi : i < g.nodes.length) (hj : j < g.nodes.length) :
    fwD g g.nodes.length i j = shortestDistW (dist0 g) g.nodes.length i j := by
  set n := g.nodes.length with hn
  apply le_antisymm
  · rcases sd_attain (dist0 g) n i j with h | ⟨p, ⟨hnd, hb⟩, hh, hl, hlw⟩
    · rw [h]; exact le_top
    · rw [← hlw]
      apply fw_le hw n i j p hh hl
      · intro v hv
        exact hb v ((List.Sublist.trans (List.dropLast_sublist _)
          (List.tail_sublist p)).subset hv)
      · exact (List.Sublist.trans (List.dropLast_sublist _)
          (List.tail_sublist p)).nodup hnd
  · by_cases htop : fwD g n i j = ⊤
    · rw [htop]; exact le_top
    · obtain ⟨p, hs, hlw⟩ := fw_exists n i j htop
      have hph : p.head? = some i := by
        rcases hs with ⟨hp, _⟩ | ⟨m, _, hp⟩ <;> rw [hp] <;> rfl
      have hpl : p.getLast? = some j := by
        rcases hs with ⟨hp, hij⟩ | ⟨m, _, hp⟩
        · rw [hp, ← hij]; rfl
        · rw [hp]
          show ((i :: m) ++ [j]).getLast? = some j
          exact List.getLast?_concat _
      have hpb : ∀ v ∈ p, v < n := by
        rcases hs with ⟨hp, _⟩ | ⟨m, hm, hp⟩
        · intro v hv
          rw [hp] at hv
          rcases List.mem_singleton.mp hv with h
          exact h ▸ hi
        · intro v hv
          rw [hp] at hv
          rcases List.mem_cons.mp hv with h | h
          · exact h ▸ hi
          · rcases List.mem_append.mp h with h | h
            · exact hm v h
            · exact (List.mem_singleton.mp h) ▸ hj
      obtain ⟨q, hqnd, hqh, hql, hqm, hqw⟩ :=
        walk_shrink (dist0_nonneg hw) p.length p (le_refl _)
      calc shortestDistW (dist0 g) n i j ≤ lw (dist0 g) q :=
            sd_le hqnd (fun v hv => hpb v (hqm v hv)) (hqh.trans hph) (hql.trans hpl)
        _ ≤ lw (dist0 g) p := hqw
        _ = fwD g n i j := hlw


theorem fwP_inv {g : Graph} (hp : ∀ e ∈ g.edges, 0 < e.weight) :
    ∀ (k : ℕ), k ≤ g.nodes.length → ∀ {i j : ℕ},
      i < g.nodes.length → j < g.nodes.length → i ≠ j →
      ((fwP g k i j).isSome ↔ fwD g k i j ≠ ⊤) ∧
      (∀ u, fwP g k i j = some u →
        u < g.nodes.length ∧ u ≠ j ∧ dist0 g u j ≠ ⊤ ∧
        fwD g k i u + dist0 g u j ≤ fwD g k i j) := by
  have hw : ∀ e ∈ g.edges, 0 ≤ e.weight := fun e he => (hp e he).le
  intro k
  induction k with
  | zero =>
    intro _ i j hi hj hne
    constructor
    · show (pred0 g i j).isSome ↔ dist0 g i j ≠ ⊤
      rw [dist0_ne_top_iff hp hne]
      unfold pred0
      split <;> simp_all
    · intro u hu
      show u < g.nodes.length ∧ u ≠ j ∧ dist0 g u j ≠ ⊤ ∧
        fwD g 0 i u + dist0 g u j ≤ fwD g 0 i j
      have hu' : pred0 g i j = some u := hu
      have hadj : (adjW g i j).isSome ∧ i = u := by
        unfold pred0 at hu'
        split at hu'
        · exact ⟨by assumption, Option.some_inj.mp hu'⟩
        · exact absurd hu' (by simp)
      obtain ⟨hadj, hiu⟩ := hadj
      subst hiu
      refine ⟨hi, hne, (dist0_ne_top_iff hp hne).mpr hadj, ?_⟩
      show fwD g 0 i i + dist0 g i j ≤ fwD g 0 i j
      show dist0 g i i + dist0 g i j ≤ dist0 g i j
      rw [dist0_diag, zero_add]
  | succ k ih =>
    intro hk1 i j hi hj hne
    have hk : k ≤ g.nodes.length := Nat.le_of_succ_le hk1
    have hfw : fwD g (k + 1) i j =
        min (fwD g k i j) (fwD g k i k + fwD g k k j) := rfl
    have hfp : fwP g (k + 1) i j =
        if fwD g k i k + fwD g k k j < fwD g k i j then fwP g k k j
        else fwP g k i j := rfl
    by_cases hc : fwD g k i k + fwD g k k j < fwD g k i j
    · have hkn : k < g.nodes.length := by
        rcases Nat.lt_or_ge k g.nodes.length with h | h
        · exact h
        · exfalso; omega
      have hkj : k ≠ j := by
        intro hkj
        subst hkj
        rw [fwD_diag hw, add_zero] at hc
        exact lt_irrefl _ hc
      have hbc : fwD g k i k + fwD g k k j ≠ ⊤ := ne_top_of_lt hc
      have hcnt : fwD g k k j ≠ ⊤ := (WithTop.add_ne_top.mp hbc).2
      have hmin : fwD g (k + 1) i j = fwD g k i k + fwD g k k j := by
        rw [hfw, min_eq_right hc.le]
      rw [hfp, if_pos hc]
      obtain ⟨ihiff, ihu⟩ := ih hk hkn hj hkj
      constructor
      · rw [hmin]
        rw [ihiff]
        exact iff_of_true hcnt hbc
      · intro u hu
        obtain ⟨hun, huj, hud, hule⟩ := ihu u hu
        refine ⟨hun, huj, hud, ?_⟩
        rw [hmin]
        have h1 : fwD g (k + 1) i u ≤ fwD g k i k + fwD g k k u :=
          min_le_right _ _
        calc fwD g (k + 1) i u + dist0 g u j
            ≤ (fwD g k i k + fwD g k k u) + dist0 g u j :=
              add_le_add_right h1 _
          _ = fwD g k i k + (fwD g k k u + dist0 g u j) := add_assoc _ _ _
          _ ≤ fwD g k i k + fwD g k k j := add_le_add_left hule _
    · have hmin : fwD g (k + 1) i j = fwD g k i j := by
        rw [hfw, min_eq_left (not_lt.mp hc)]
      rw [hfp, if_neg hc, hmin]
      obtain ⟨ihiff, ihu⟩ := ih hk hi hj hne
      refine ⟨ihiff, fun u hu => ?_⟩
      obtain ⟨hun, huj, hud, hule⟩ := ihu u hu
      exact ⟨hun, huj, hud, le_trans (add_le_add_right (fwD_mono k i u) _) hule⟩


theorem fwNearer_lt_len {g : Graph} {s c : ℕ} (hc : c < g.nodes.length) :
    fwNearer g s c < g.nodes.length := by
  have hss : (Finset.range g.nodes.length).filter
      (fun u => fwD g g.nodes.length s u < fwD g g.nodes.length s c) ⊂
      Finset.range g.nodes.length := by
    rw [Finset.ssubset_iff_of_subset (Finset.filter_subset _ _)]
    exact ⟨c, Finset.mem_range.mpr hc, fun hmem =>
      lt_irrefl _ (Finset.mem_filter.mp hmem).2⟩
  have := Finset.card_lt_card hss
  rwa [Finset.card_range] at this


theorem fwNearer_step {g : Graph} {s c u : ℕ} (hu : u < g.nodes.length)
    (hlt : fwD g g.nodes.length s u < fwD g g.nodes.length s c) :
    fwNearer g s u < fwNearer g s c := by
  apply Finset.card_lt_card
  rw [Finset.ssubset_iff_of_subset]
  · exact ⟨u, Finset.mem_filter.mpr ⟨Finset.mem_range.mpr hu, hlt⟩,
      fun hmem => lt_irrefl _ (Finset.mem_filter.mp hmem).2⟩
  · intro x hx
    obtain ⟨hxr, hxd⟩ := Finset.mem_filter.mp hx
    exact Finset.mem_filter.mpr ⟨hxr, lt_trans hxd hlt⟩


theorem cpLoop_spec {g : Graph} (hp : ∀ e ∈ g.edges, 0 < e.weight)
    {s : ℕ} (hs : s < g.nodes.length) :
    ∀ (f : ℕ) (c : ℕ) (acc : List ℕ), c < g.nodes.length →
      fwD g g.nodes.length s c ≠ ⊤ → fwNearer g s c < f →
      acc.getLast? = some c →
      ∃ ext : List ℕ,
        cpLoop (fwP g g.nodes.length) s f c acc = acc ++ ext ∧
        (acc ++ ext).getLast? = some s := by
  intro f
  induction f with
  | zero =>
    intro c acc _ _ hm _
    exact absurd hm (Nat.not_lt_zero _)
  | succ f ih =>
    intro c acc hc hd hm hacc
    by_cases hcs : c = s
    · refine ⟨[], by simp [cpLoop, hcs], ?_⟩
      rw [List.append_nil, hacc, hcs]
    · have hsc : s ≠ c := fun h => hcs h.symm
      obtain ⟨hiff, hfacts⟩ :=
        fwP_inv hp g.nodes.length (le_refl _) hs hc hsc
      have hsome : (fwP g g.nodes.length s c).isSome := hiff.mpr hd
      obtain ⟨u, hu⟩ := Option.isSome_iff_exists.mp hsome
      obtain ⟨hun, hunc, hu0, hule⟩ := hfacts u hu
      have hdu : fwD g g.nodes.length s u ≠ ⊤ := by
        intro htop
        rw [htop, top_add] at hule
        exact hd (top_le_iff.mp hule)
      have hlt : fwD g g.nodes.length s u < fwD g g.nodes.length s c :=
        lt_of_lt_of_le (wt_lt_add_of_pos hdu (dist0_pos hp hunc hu0)) hule
      have hm' : fwNearer g s u < f :=
        lt_of_lt_of_le (fwNearer_step hun hlt) (Nat.lt_succ_iff.mp hm)
      obtain ⟨ext, heq, hlast⟩ :=
        ih u (acc ++ [u]) hun hdu hm' (List.getLast?_concat _)
      refine ⟨u :: ext, ?_, ?_⟩
      · have hstep : cpLoop (fwP g g.nodes.length) s (f + 1) c acc =
            cpLoop (fwP g g.nodes.length) s f u (acc ++ [u]) := by
          show (if c = s then acc else
            match fwP g g.nodes.length s c with
            | some c' => cpLoop (fwP g g.nodes.length) s f c' (acc ++ [c'])
            | none => acc) = _
          rw [if_neg hcs, hu]
        rw [hstep, heq, List.append_assoc]
        rfl
      · have : acc ++ u :: ext = (acc ++ [u]) ++ ext := by
          rw [List.append_assoc]; rfl
        rw [this, hlast]


theorem fwPathOf_self {g : Graph} (s : ℕ) :
    fwPathOf g s s = [markOf g s] := by
  unfold fwPathOf constructPath
  rw [if_pos rfl]
  rfl


theorem fwPathOf_none {g : Graph} {s t : ℕ} (hne : s ≠ t)
    (h : fwP g g.nodes.length s t = none) : fwPathOf g s t = [] := by
  unfold fwPathOf constructPath
  rw [if_neg hne, h]
  rfl


theorem fwPathOf_endpoints {g : Graph} (hp : ∀ e ∈ g.edges, 0 < e.weight)
    {s t : ℕ} (hs : s < g.nodes.length) (ht : t < g.nodes.length)
    (hne : s ≠ t) (hd : fwD g g.nodes.length s t ≠ ⊤) :
    fwPathOf g s t ≠ [] ∧ (fwPathOf g s t).head? = some (markOf g s) ∧
      (fwPathOf g s t).getLast? = some (markOf g t) := by
  obtain ⟨hiff, hfacts⟩ := fwP_inv hp g.nodes.length (le_refl _) hs ht hne
  obtain ⟨c, hc⟩ := Option.isSome_iff_exists.mp (hiff.mpr hd)
  obtain ⟨hcn, hct, hc0, hcle⟩ := hfacts c hc
  have hdc : fwD g g.nodes.length s c ≠ ⊤ := by
    intro htop
    rw [htop, top_add] at hcle
    exact hd (top_le_iff.mp hcle)
  obtain ⟨ext, heq, hlast⟩ := cpLoop_spec hp hs g.nodes.length c [t, c] hcn hdc
    (fwNearer_lt_len hcn) rfl
  have hpath : fwPathOf g s t =
      (([t, c] ++ ext).map (markOf g)).reverse := by
    unfold fwPathOf constructPath
    rw [if_neg hne, hc]
    show ((cpLoop (fwP g g.nodes.length) s g.nodes.length c [t, c]).map
      (markOf g)).reverse = _
    rw [heq]
  constructor
  · rw [hpath]
    simp
  · constructor
    · rw [hpath, List.head?_reverse, List.getLast?_map, hlast]
      rfl
    · rw [hpath, List.getLast?_reverse, List.head?_map]
      rfl


theorem fwLengthTable_self {g : Graph} (hnd : g.nodes.Nodup)
    (hw : ∀ e ∈ g.edges, 0 ≤ e.weight) {s : ℕ} (hs : s < g.nodes.length) :
    fwLengthTable g s s = some 0 := by
  unfold fwLengthTable
  rw [fwPathOf_self]
  have hidx : idxOf g (markOf g s) = s := by
    unfold idxOf markOf
    rw [List.getD_eq_getElem g.nodes "" hs]
    exact List.get_indexOf hnd ⟨s, hs⟩
  simp only [List.headD, List.getLastD, if_neg (by simp : ¬([markOf g s] = []))]
  show some (fwD g g.nodes.length (idxOf g (markOf g s)) (idxOf g (markOf g s))) = some 0
  rw [hidx, fwD_diag hw]


theorem fwLengthTable_none {g : Graph} (hp : ∀ e ∈ g.edges, 0 < e.weight)
    {s t : ℕ} (hs : s < g.nodes.length) (ht : t < g.nodes.length)
    (hne : s ≠ t) (hd : fwD g g.nodes.length s t = ⊤) :
    fwLengthTable g s t = none := by
  obtain ⟨hiff, _⟩ := fwP_inv hp g.nodes.length (le_refl _) hs ht hne
  have : fwP g g.nodes.length s t = none := by
    rcases h : fwP g g.nodes.length s t with _ | u
    · rfl
    · exact absurd hd (hiff.mp (by rw [h]; rfl))
  unfold fwLengthTable
  rw [fwPathOf_none hne this, if_pos rfl]


theorem fwLengthTable_some {g : Graph} (hnd : g.nodes.Nodup)
    (hp : ∀ e ∈ g.edges, 0 < e.weight) {s t : ℕ} (hs : s < g.nodes.length)
    (ht : t < g.nodes.length) (hne : s ≠ t)
    (hd : fwD g g.nodes.length s t ≠ ⊤) :
    fwLengthTable g s t = some (fwD g g.nodes.length s t) := by
  obtain ⟨hnil, hh, hl⟩ := fwPathOf_endpoints hp hs ht hne hd
  have hidx : ∀ u : ℕ, u < g.nodes.length → idxOf g (markOf g u) = u := by
    intro u hu
    unfold idxOf markOf
    rw [List.getD_eq_getElem g.nodes "" hu]
    exact List.get_indexOf hnd ⟨u, hu⟩
  unfold fwLengthTable
  rw [if_neg hnil]
  have hhd : (fwPathOf g s t).headD "" = markOf g s := by
    rw [List.headD_eq_head?, hh]
    rfl
  have hld : (fwPathOf g s t).getLastD "" = markOf g t := by
    rw [List.getLastD_eq_getLast?, hl]
    rfl
  rw [hhd, hld, hidx s hs, hidx t ht]


theorem lw_dist0_eq_ewT {g : Graph} (hp : ∀ e ∈ g.edges, 0 < e.weight) :
    ∀ p : List ℕ, p.Nodup → lw (dist0 g) p = lw (ewT g) p
  | [], _ => rfl
  | [_], _ => rfl
  | a :: b :: r, hnd => by
    have hab : a ≠ b :=
      fun h => (List.nodup_cons.mp hnd).1 (h ▸ List.mem_cons_self b r)
    have htl : (b :: r).Nodup := (List.nodup_cons.mp hnd).2
    show dist0 g a b + lw (dist0 g) (b :: r) = ewT g a b + lw (ewT g) (b :: r)
    rw [lw_dist0_eq_ewT hp (b :: r) htl]
    congr 1
    cases hq : adjW g a b with
    | none => rw [dist0_none hab hq, ewT_none hq]
    | some q =>
      obtain ⟨e, he, hew⟩ := adjW_mem hq
      have h0 : (0 : ℚ) < q := hew ▸ hp e he
      rw [dist0_some hab hq, ewT_some hq, if_neg (by positivity)]


theorem sd_dist0_eq_ewT {g : Graph} (hp : ∀ e ∈ g.edges, 0 < e.weight)
    (s t : ℕ) :
    shortestDistW (dist0 g) g.nodes.length s t =
      shortestDistW (ewT g) g.nodes.length s t := by
  unfold shortestDistW
  have key : ∀ L : List (List ℕ), (∀ p ∈ L, p.Nodup) →
      L.foldr (fun p m => min (lw (dist0 g) p) m) ⊤ =
      L.foldr (fun p m => min (lw (ewT g) p) m) ⊤ := by
    intro L
    induction L with
    | nil => intro _; rfl
    | cons a L ih =>
      intro h
      show min (lw (dist0 g) a) _ = min (lw (ewT g) a) _
      rw [lw_dist0_eq_ewT hp a (h a (List.mem_cons_self a L)),
        ih (fun p hpL => h p (List.mem_cons_of_mem a hpL))]
  exact key _ (fun p hpc => (mem_pathCands.mp hpc).1.1)


/-- C3 (amended): with strictly positive edge weights, the serial
Floyd–Warshall back-end and the serial Dijkstra back-end have a
`shpath_length` entry for exactly the same `(source, target)` pairs, and the
entries are equal.  (With a merely non-negative weight the claim fails: see
the zero-weight counterexample.) -/
theorem C3_fw_dijkstra_agree_pos_weights (g : Graph) (hnd : g.nodes.Nodup)
    (hp : ∀ e ∈ g.edges, 0 < e.weight) (s t : ℕ) (hs : s < g.nodes.length)
    (ht : t < g.nodes.length) :
    ((fwLengthTable g s t).isSome ↔ (dijkstraLength g s t).isSome) ∧
    ∀ a b : WithTop ℚ,
      fwLengthTable g s t = some a → dijkstraLength g s t = some b → a = b := by
  have hw : ∀ e ∈ g.edges, 0 ≤ e.weight := fun e he => (hp e he).le
  have hsd : shortestDistW (ewT g) g.nodes.length s t =
      fwD g g.nodes.length s t := by
    rw [← sd_dist0_eq_ewT hp, ← fwD_eq_shortestDist hw hs ht]
  by_cases hst : s = t
  · subst hst
    have h1 : fwLengthTable g s s = some 0 := fwLengthTable_self hnd hw hs
    have h2 : dijkstraLength g s s = some 0 := by
      unfold dijkstraLength
      rw [hsd, fwD_diag hw]
      rfl
    rw [h1, h2]
    exact ⟨by simp, fun a b ha hb => by
      rw [← Option.some_inj.mp ha, ← Option.some_inj.mp hb]⟩
  · by_cases hd : fwD g g.nodes.length s t = ⊤
    · have h1 : fwLengthTable g s t = none := fwLengthTable_none hp hs ht hst hd
      have h2 : dijkstraLength g s t = none := by
        unfold dijkstraLength
        rw [hsd, hd, if_pos rfl]
      rw [h1, h2]
      exact ⟨by simp, fun a b ha _ => by simp at ha⟩
    · have h1 : fwLengthTable g s t = some (fwD g g.nodes.length s t) :=
        fwLengthTable_some hnd hp hs ht hst hd
      have h2 : dijkstraLength g s t = some (fwD g g.nodes.length s t) := by
        unfold dijkstraLength
        rw [hsd, if_neg hd]
      rw [h1, h2]
      exact ⟨by simp, fun a b ha hb => by
        rw [← Option.some_inj.mp ha, ← Option.some_inj.mp hb]⟩


/-- C3 counterexample: on a graph whose only edge `A → B` has the
non-negative weight 0, both back-ends have an entry for `(A, B)` —
`dist[dist == 0] = np.inf` erases the edge from the distance matrix but not
from the predecessor matrix — yet Floyd–Warshall stores the length `inf`
while Dijkstra stores `0.0`, so the claim as stated (any non-negative
weights) is false. -/
theorem C3_zero_weight_counterexample :
    fwLengthTable gZeroW 0 1 = some ⊤ ∧
    dijkstraLength gZeroW 0 1 = some 0 ∧
    ((⊤ : WithTop ℚ) ≠ (0 : WithTop ℚ)) := by
  refine ⟨by with_unfolding_all decide, by with_unfolding_all decide,
    by decide⟩


/-- C3 witness: the amended equivalence applied to the S2 graph, pair
`(A, C)`. -/
theorem C3_fw_dijkstra_agree_pos_weights_witness :
    ((fwLengthTable gS2 0 2).isSome ↔ (dijkstraLength gS2 0 2).isSome) ∧
    ∀ a b : WithTop ℚ,
      fwLengthTable gS2 0 2 = some a → dijkstraLength gS2 0 2 = some b →
      a = b :=
  C3_fw_dijkstra_agree_pos_weights gS2 (by decide) (by decide) 0 2
    (by decide) (by decide)


theorem filter_map_key_mem {keys : List ℕ} (f : ℕ → ℚ) {t : ℕ}
    (hnd : keys.Nodup) (ht : t ∈ keys) :
    (keys.map (fun k => (k, f k))).filter (fun kv => kv.1 = t) = [(t, f t)] := by
  induction keys with
  | nil => simp at ht
  | cons a keys ih =>
    obtain ⟨ha, hnd'⟩ := List.nodup_cons.mp hnd
    rcases List.mem_cons.mp ht with rfl | ht'
    · show List.filter _ ((t, f t) :: keys.map fun k => (k, f k)) = _
      rw [List.filter_cons_of_pos (by simp)]
      have hrest : (keys.map (fun k => (k, f k))).filter
          (fun kv => kv.1 = t) = [] := by
        rw [List.filter_eq_nil_iff]
        rintro ⟨k, v⟩ hkv
        obtain ⟨k', hk', hke⟩ := List.mem_map.mp hkv
        injection hke with he1 he2
        subst he1
        simp only [decide_eq_true_eq]
        exact fun he => ha (he ▸ hk')
      rw [hrest]
    · show List.filter _ ((a, f a) :: keys.map fun k => (k, f k)) = _
      rw [List.filter_cons_of_neg (by
        simp only [decide_eq_true_eq]
        exact fun he => ha (he ▸ ht'))]
      exact ih hnd' ht'


theorem filter_map_key_not_mem {keys : List ℕ} (f : ℕ → ℚ) {t : ℕ}
    (ht : t ∉ keys) :
    (keys.map (fun k => (k, f k))).filter (fun kv => kv.1 = t) = [] := by
  rw [List.filter_eq_nil_iff]
  rintro ⟨k, v⟩ hkv
  obtain ⟨k', hk', hke⟩ := List.mem_map.mp hkv
  injection hke with he1 he2
  subst he1
  simp only [decide_eq_true_eq]
  exact fun he => ht (he ▸ hk')


theorem hasPathB_iff {g : Graph} {s t : ℕ} :
    hasPathB g s t = true ↔
      shortestDistW (ewT g) g.nodes.length s t ≠ ⊤ := by
  unfold hasPathB
  exact decide_eq_true_iff


theorem mem_fwKeys {g : Graph} {s t : ℕ} (ht : t < g.nodes.length) :
    t ∈ fwKeys g s ↔ fwPathOf g s t ≠ [] := by
  unfold fwKeys
  rw [List.mem_filter]
  simp [List.mem_range, ht]


theorem fwKeys_nodup (g : Graph) (s : ℕ) : (fwKeys g s).Nodup :=
  List.Nodup.filter _ (List.nodup_range _)


theorem sd_pos {g : Graph} (hp : ∀ e ∈ g.edges, 0 < e.weight) {s t : ℕ}
    (hne : s ≠ t) (hd : shortestDistW (dist0 g) g.nodes.length s t ≠ ⊤) :
    0 < shortestDistW (dist0 g) g.nodes.length s t := by
  have hw : ∀ e ∈ g.edges, 0 ≤ e.weight := fun e he => (hp e he).le
  rcases sd_attain (dist0 g) g.nodes.length s t with h | ⟨p, ⟨hnd, _⟩, hh, hl, hlw⟩
  · exact absurd h hd
  · rw [← hlw] at hd ⊢
    match p, hh, hl with
    | [a], hh, hl =>
      simp only [List.head?_cons, Option.some_inj] at hh
      have : ([a] : List ℕ).getLast? = some a := by simp
      rw [this, Option.some_inj] at hl
      exact absurd (hh ▸ hl ▸ rfl : s = t) hne
    | a :: b :: r, hh, hl =>
      simp only [List.head?_cons, Option.some_inj] at hh
      have hab : a ≠ b :=
        fun h => (List.nodup_cons.mp hnd).1 (h ▸ List.mem_cons_self b r)
      have hstep : dist0 g a b ≠ ⊤ := by
        intro htop
        apply hd
        show dist0 g a b + lw (dist0 g) (b :: r) = ⊤
        rw [htop, top_add]
      have h1 : 0 < dist0 g a b := dist0_pos hp hab hstep
      have h2 : 0 ≤ lw (dist0 g) (b :: r) := lw_nonneg (dist0_nonneg hw) _
      show 0 < dist0 g a b + lw (dist0 g) (b :: r)
      exact add_pos_of_pos_of_nonneg h1 h2


/-- C8: if no reconstructed shortest path has more than one node — as on any
non-empty graph without edges — the denominator
`length_tot_shortest_paths_list` is 0 and `betweenness_centrality` raises an
unguarded `ZeroDivisionError`. -/
theorem C8_betweenness_division_by_zero (nodes : List String)
    (sp : String → List (List String)) (hne : nodes ≠ [])
    (hshort : ∀ m ∈ nodes, ∀ p ∈ sp m, p.length ≤ 1) :
    betweennessCentrality nodes sp =
      Except.error "ZeroDivisionError: division by zero" := by
  have hl : allLongPaths nodes sp = [] := by
    rw [List.eq_nil_iff_forall_not_mem]
    intro p hp
    obtain ⟨m, hm, hpm⟩ := List.mem_flatMap.mp hp
    obtain ⟨hmem, hlen⟩ := List.mem_filter.mp hpm
    exact absurd (hshort m hm p hmem)
      (by simpa using (decide_eq_true_iff).mp hlen)
  unfold betweennessCentrality
  rw [hl]
  rw [if_neg (by simp [hne])]
  rfl


/-- C8 witness: on the edgeless two-node graph the Floyd–Warshall tables hold
only the one-node self paths, and `betweenness_centrality` raises. -/
theorem C8_betweenness_division_by_zero_witness :
    betweennessCentrality gEdgeless.nodes (fwSP gEdgeless) =
      Except.error "ZeroDivisionError: division by zero" :=
  C8_betweenness_division_by_zero gEdgeless.nodes (fwSP gEdgeless)
    (by decide) (by with_unfolding_all decide)


theorem idxOf_markOf {g : Graph} (hnd : g.nodes.Nodup) {u : ℕ}
    (hu : u < g.nodes.length) : idxOf g (markOf g u) = u := by
  unfold idxOf markOf
  rw [List.getD_eq_getElem g.nodes "" hu]
  exact List.get_indexOf hnd ⟨u, hu⟩


/-- C4, amended to strictly positive service flows (with a zero-weight edge
the unamended claim fails: see the counterexample on `gZ2`): after a serial
Floyd–Warshall run followed by `nodal_eff`, every node's `original_nodal_eff`
is its efficiency sum divided by `N - 1`, and for every ordered pair `(s, t)`
with `s ≠ t`: if `t` is reachable the efficiency list holds exactly one entry
for `t`, equal to `1 / shpath_length(s, t)`, and if `t` is unreachable it
holds no entry. -/
theorem C4_nodal_eff_efficiency (g : Graph) (hnd : g.nodes.Nodup)
    (hp : ∀ e ∈ g.edges, 0 < e.weight) (hN : 2 ≤ g.nodes.length) :
    (∃ f, nodalEff g.nodes (fwEffTable g) = Except.ok f ∧
      ∀ v, f v = ((fwEffTable g v).map (fun kv => kv.2)).sum /
        ((g.nodes.length : ℚ) - 1)) ∧
    (∀ s t : ℕ, s < g.nodes.length → t < g.nodes.length → s ≠ t →
      (hasPathB g s t = true →
        ∃ q : ℚ, 0 < q ∧ fwLengthTable g s t = some ((q : ℚ) : WithTop ℚ) ∧
          (fwEffList g s).filter (fun kv => kv.1 = t) = [(t, 1 / q)]) ∧
      (hasPathB g s t = false →
        (fwEffList g s).filter (fun kv => kv.1 = t) = [])) := by
  have hw : ∀ e ∈ g.edges, 0 ≤ e.weight := fun e he => (hp e he).le
  constructor
  · unfold nodalEff
    rw [if_neg (by omega), if_neg (by omega)]
    exact ⟨_, rfl, fun v => rfl⟩
  · intro s t hs ht hne
    have hsd_eq : shortestDistW (ewT g) g.nodes.length s t =
        fwD g g.nodes.length s t := by
      rw [← sd_dist0_eq_ewT hp, ← fwD_eq_shortestDist hw hs ht]
    constructor
    · intro hreach
      have hdne : fwD g g.nodes.length s t ≠ ⊤ := by
        rw [← hsd_eq]
        exact hasPathB_iff.mp hreach
      obtain ⟨hnil, hh, hl⟩ := fwPathOf_endpoints hp hs ht hne hdne
      obtain ⟨q, hq⟩ : ∃ q : ℚ, fwD g g.nodes.length s t = (q : WithTop ℚ) := by
        cases hfd : fwD g g.nodes.length s t with
        | top => exact absurd hfd hdne
        | coe q => exact ⟨q, rfl⟩
      have hqpos : 0 < q := by
        have h0 : 0 < shortestDistW (dist0 g) g.nodes.length s t := by
          apply sd_pos hp hne
          rw [← fwD_eq_shortestDist hw hs ht]
          exact hdne
        rw [← fwD_eq_shortestDist hw hs ht, hq] at h0
        exact_mod_cast h0
      refine ⟨q, hqpos, ?_, ?_⟩
      · rw [fwLengthTable_some hnd hp hs ht hne hdne, hq]
      · have hkeys : t ∈ fwKeys g s := (mem_fwKeys ht).mpr hnil
        show ((fwKeys g s).map (fun k => (k, fwEffOf g s k))).filter
          (fun kv => kv.1 = t) = _
        rw [filter_map_key_mem (fwEffOf g s) (fwKeys_nodup g s) hkeys]
        have heff : fwEffOf g s t = 1 / q := by
          unfold fwEffOf
          have hhd : (fwPathOf g s t).headD "" = markOf g s := by
            rw [List.headD_eq_head?, hh]; rfl
          have hld : (fwPathOf g s t).getLastD "" = markOf g t := by
            rw [List.getLastD_eq_getLast?, hl]; rfl
          rw [hhd, hld, idxOf_markOf hnd hs, idxOf_markOf hnd ht, hq]
          unfold effOf
          rw [if_neg (by exact_mod_cast hqpos.ne'), if_neg (by simp)]
          rw [WithTop.untop'_coe]
        rw [heff]
    · intro hnreach
      have hdtop : fwD g g.nodes.length s t = ⊤ := by
        rw [← hsd_eq]
        by_contra hne'
        have := hasPathB_iff.mpr hne'
        rw [hnreach] at this
        exact Bool.false_ne_true this
      obtain ⟨hiff, _⟩ := fwP_inv hp g.nodes.length (le_refl _) hs ht hne
      have hnone : fwP g g.nodes.length s t = none := by
        rcases hfp : fwP g g.nodes.length s t with _ | u
        · rfl
        · exact absurd hdtop (hiff.mp (by rw [hfp]; rfl))
      have hnil : fwPathOf g s t = [] := fwPathOf_none hne hnone
      have hkeys : t ∉ fwKeys g s := by
        rw [mem_fwKeys ht]
        simp [hnil]
      show ((fwKeys g s).map (fun k => (k, fwEffOf g s k))).filter
        (fun kv => kv.1 = t) = _
      exact filter_map_key_not_mem (fwEffOf g s) hkeys


/-- C4 witness: on the S2 graph, the pair `(A, C)` is reachable with length 1
and efficiency entry `1/1`, while `(B, A)` is unreachable with no entry. -/
theorem C4_nodal_eff_efficiency_witness :
    (fwEffList gS2 0).filter (fun kv => kv.1 = 2) = [(2, 1 / 1)] ∧
    (fwEffList gS2 1).filter (fun kv => kv.1 = 0) = [] := by
  have hthm := C4_nodal_eff_efficiency gS2 (by decide) (by decide) (by decide)
  constructor
  · obtain ⟨q, hq0, hql, hqf⟩ :=
      (hthm.2 0 2 (by decide) (by decide) (by decide)).1
        (by with_unfolding_all decide)
    have h1 : fwLengthTable gS2 0 2 = some ((1 : ℚ) : WithTop ℚ) := by
      with_unfolding_all decide
    rw [hql] at h1
    have hq1 : q = 1 := by exact_mod_cast Option.some_inj.mp h1
    rw [hq1] at hqf
    exact hqf
  · exact (hthm.2 1 0 (by decide) (by decide) (by decide)).2
      (by with_unfolding_all decide)


/-- C4 counterexample: on `gZ2` (edge `A → B` of weight 0, edge `B → C` of
weight 1) the pair `(A, C)` is reachable, yet the serial Floyd–Warshall run
gives it no `shpath_length` entry and no efficiency entry:
`dist[dist == 0] = np.inf` wipes the zero-weight edge from the distance
matrix before the relaxation, `pred[A, C]` stays `inf`, the reconstructed
path is empty, and the dict comprehension drops the pair — refuting the
unrestricted claim that every reachable pair has an efficiency entry equal to
the reciprocal of its `shpath_length`. -/
theorem C4_zero_weight_counterexample :
    hasPathB gZ2 0 2 = true ∧
    fwLengthTable gZ2 0 2 = none ∧
    (fwEffList gZ2 0).filter (fun kv => kv.1 = 2) = [] := by
  with_unfolding_all decide


theorem sum_map_add_nat (nodes : List String) (f h : String → ℕ) :
    (nodes.map (fun v => f v + h v)).sum =
      (nodes.map f).sum + (nodes.map h).sum := by
  induction nodes with
  | nil => rfl
  | cons a nodes ih =>
    simp only [List.map_cons, List.sum_cons, ih]
    omega


theorem sum_map_ite_nat (nodes : List String) (p : String → Bool) :
    (nodes.map (fun v => if p v then 1 else 0)).sum = nodes.countP p := by
  induction nodes with
  | nil => rfl
  | cons a nodes ih =>
    simp only [List.map_cons, List.sum_cons, ih, List.countP_cons]
    by_cases h : p a = true
    · simp only [if_pos h]; omega
    · simp only [if_neg h]; omega


theorem sum_count_exchange (nodes : List String)
    (P : String → List String → Bool) :
    ∀ L : List (List String),
      (nodes.map (fun v => L.countP (P v))).sum =
        (L.map (fun l => nodes.countP (fun v => P v l))).sum
  | [] => by simp
  | l :: L => by
    have hcp : ∀ v, (l :: L).countP (P v) =
        L.countP (P v) + (if P v l then 1 else 0) := by
      intro v
      rw [List.countP_cons]
    calc (nodes.map (fun v => (l :: L).countP (P v))).sum
        = (nodes.map (fun v => L.countP (P v) + (if P v l then 1 else 0))).sum := by
          simp only [hcp]
      _ = (nodes.map (fun v => L.countP (P v))).sum +
            (nodes.map (fun v => if P v l then 1 else 0)).sum :=
          sum_map_add_nat _ _ _
      _ = (L.map (fun l' => nodes.countP (fun v => P v l'))).sum +
            nodes.countP (fun v => P v l) := by
          rw [sum_count_exchange nodes P L, sum_map_ite_nat]
      _ = ((l :: L).map (fun l' => nodes.countP (fun v => P v l'))).sum := by
          simp only [List.map_cons, List.sum_cons]
          omega


theorem count_interior_le (nodes : List String) (hnd : nodes.Nodup)
    (l : List String) (ha : l.headD "" ∈ nodes) (hb : l.getLastD "" ∈ nodes)
    (hab : l.headD "" ≠ l.getLastD "") :
    nodes.countP (fun v =>
        decide (v ∈ l ∧ v ≠ l.headD "" ∧ v ≠ l.getLastD "")) ≤
      nodes.length - 2 := by
  rw [List.countP_eq_length_filter]
  set p : String → Bool := fun v =>
    decide (v ∈ l ∧ v ≠ l.headD "" ∧ v ≠ l.getLastD "") with hp
  have hfnd : (nodes.filter p).Nodup := List.Nodup.filter _ hnd
  rw [← List.toFinset_card_of_nodup hfnd]
  have hsub : (nodes.filter p).toFinset ⊆
      nodes.toFinset \ {l.headD "", l.getLastD ""} := by
    intro x hx
    rw [List.mem_toFinset, List.mem_filter] at hx
    obtain ⟨hxn, hxp⟩ := hx
    rw [hp] at hxp
    simp only [decide_eq_true_eq] at hxp
    rw [Finset.mem_sdiff, List.mem_toFinset]
    refine ⟨hxn, ?_⟩
    simp only [Finset.mem_insert, Finset.mem_singleton]
    rintro (h | h)
    · exact hxp.2.1 h
    · exact hxp.2.2 h
  calc (nodes.filter p).toFinset.card ≤
      (nodes.toFinset \ {l.headD "", l.getLastD ""}).card :=
        Finset.card_le_card hsub
    _ = nodes.toFinset.card - ({l.headD "", l.getLastD ""} : Finset String).card := by
        rw [Finset.card_sdiff]
        intro x hx
        simp only [Finset.mem_insert, Finset.mem_singleton] at hx
        rw [List.mem_toFinset]
        rcases hx with rfl | rfl
        · exact ha
        · exact hb
    _ = nodes.length - 2 := by
        rw [List.toFinset_card_of_nodup hnd, Finset.card_pair hab]


theorem sum_map_div_q (nodes : List String) (f : String → ℚ) (c : ℚ) :
    (nodes.map (fun v => f v / c)).sum = (nodes.map f).sum / c := by
  induction nodes with
  | nil => simp
  | cons a nodes ih =>
    simp only [List.map_cons, List.sum_cons, ih, add_div]


theorem sum_map_cast_q (nodes : List String) (f : String → ℕ) :
    (nodes.map (fun v => ((f v : ℕ) : ℚ))).sum = (((nodes.map f).sum : ℕ) : ℚ) := by
  induction nodes with
  | nil => simp
  | cons a nodes ih =>
    simp only [List.map_cons, List.sum_cons, ih]
    push_cast
    ring


/-- C5 (amended): when the denominator is positive, every
`betweenness_centrality` value lies in `[0, 1]`, and the sum over all nodes is
at most `N - 2` (`N` the number of live nodes).  The originally claimed sum
bound of 1 fails: a reconstructed path with more than one interior node is
counted once per interior node (see the six-node chain counterexample). -/
theorem C5_betweenness_bounds (nodes : List String)
    (sp : String → List (List String)) (hnd : nodes.Nodup)
    (hwf : ∀ m ∈ nodes, ∀ p ∈ sp m, 1 < p.length →
      p.headD "" ∈ nodes ∧ p.getLastD "" ∈ nodes ∧ p.headD "" ≠ p.getLastD "")
    (hpos : (allLongPaths nodes sp).length ≠ 0) :
    ∃ bc : List (String × ℚ), betweennessCentrality nodes sp = Except.ok bc ∧
      (∀ pr ∈ bc, 0 ≤ pr.2 ∧ pr.2 ≤ 1) ∧
      (bc.map (fun pr => pr.2)).sum ≤ (nodes.length : ℚ) - 2 := by
  set L := allLongPaths nodes sp with hL
  have hLfacts : ∀ l ∈ L, 1 < l.length ∧ l.headD "" ∈ nodes ∧
      l.getLastD "" ∈ nodes ∧ l.headD "" ≠ l.getLastD "" := by
    intro l hl
    obtain ⟨m, hm, hlm⟩ := List.mem_flatMap.mp hl
    obtain ⟨hmem, hlen⟩ := List.mem_filter.mp hlm
    have hlen' : 1 < l.length := by simpa using (decide_eq_true_iff).mp hlen
    exact ⟨hlen', hwf m hm l hmem hlen'⟩
  obtain ⟨l₀, hl₀⟩ := List.exists_mem_of_length_pos (Nat.pos_of_ne_zero hpos)
  obtain ⟨_, ha, hb, hab⟩ := hLfacts l₀ hl₀
  have hne : nodes ≠ [] := fun h => by rw [h] at ha; exact List.not_mem_nil _ ha
  have hN2 : 2 ≤ nodes.length := by
    have hsub : ({l₀.headD "", l₀.getLastD ""} : Finset String) ⊆
        nodes.toFinset := by
      intro x hx
      simp only [Finset.mem_insert, Finset.mem_singleton] at hx
      rw [List.mem_toFinset]
      rcases hx with rfl | rfl
      · exact ha
      · exact hb
    calc 2 = ({l₀.headD "", l₀.getLastD ""} : Finset String).card :=
          (Finset.card_pair hab).symm
      _ ≤ nodes.toFinset.card := Finset.card_le_card hsub
      _ = nodes.length := List.toFinset_card_of_nodup hnd
  have hD : (0 : ℚ) < (L.length : ℚ) := by
    exact_mod_cast Nat.pos_of_ne_zero hpos
  have hok : betweennessCentrality nodes sp = Except.ok (nodes.map (fun v =>
      (v, ((L.filter (fun l =>
        v ∈ l ∧ v ≠ l.headD "" ∧ v ≠ l.getLastD "")).length : ℚ) /
        (L.length : ℚ)))) := by
    unfold betweennessCentrality
    rw [if_neg (by simp [hne]), if_neg hpos]
  refine ⟨_, hok, ?_, ?_⟩
  · rintro ⟨v, q⟩ hpr
    obtain ⟨v', _, hv'⟩ := List.mem_map.mp hpr
    injection hv' with he1 he2
    subst he2
    constructor
    · positivity
    · rw [div_le_one hD]
      exact_mod_cast List.length_filter_le _ _
  · have hmapsnd : (nodes.map (fun v =>
        (v, ((L.filter (fun l =>
          v ∈ l ∧ v ≠ l.headD "" ∧ v ≠ l.getLastD "")).length : ℚ) /
          (L.length : ℚ)))).map (fun pr => pr.2) =
        nodes.map (fun v =>
          ((L.filter (fun l =>
            v ∈ l ∧ v ≠ l.headD "" ∧ v ≠ l.getLastD "")).length : ℚ) /
            (L.length : ℚ)) := by
      rw [List.map_map]
      rfl
    rw [hmapsnd, sum_map_div_q, div_le_iff₀ hD]
    have hcnt : ∀ v, (L.filter (fun l =>
        v ∈ l ∧ v ≠ l.headD "" ∧ v ≠ l.getLastD "")).length =
        L.countP (fun l => decide (v ∈ l ∧ v ≠ l.headD "" ∧ v ≠ l.getLastD "")) := by
      intro v
      rw [List.countP_eq_length_filter]
    have hsum_nat : (nodes.map (fun v => (L.filter (fun l =>
        v ∈ l ∧ v ≠ l.headD "" ∧ v ≠ l.getLastD "")).length)).sum ≤
        L.length * (nodes.length - 2) := by
      have hexch := sum_count_exchange nodes
        (fun v l => decide (v ∈ l ∧ v ≠ l.headD "" ∧ v ≠ l.getLastD "")) L
      have : (nodes.map (fun v => (L.filter (fun l =>
          v ∈ l ∧ v ≠ l.headD "" ∧ v ≠ l.getLastD "")).length)).sum =
          (L.map (fun l => nodes.countP (fun v =>
            decide (v ∈ l ∧ v ≠ l.headD "" ∧ v ≠ l.getLastD "")))).sum := by
        simp only [hcnt]
        exact hexch
      rw [this]
      have hbound := List.sum_le_card_nsmul
        (L.map (fun l => nodes.countP (fun v =>
          decide (v ∈ l ∧ v ≠ l.headD "" ∧ v ≠ l.getLastD ""))))
        (nodes.length - 2) ?_
      · rwa [List.length_map, smul_eq_mul] at hbound
      · intro x hx
        obtain ⟨l, hl, hlx⟩ := List.mem_map.mp hx
        obtain ⟨_, hla, hlb, hlab⟩ := hLfacts l hl
        rw [← hlx]
        exact count_interior_le nodes hnd l hla hlb hlab
    calc (nodes.map (fun v => ((L.filter (fun l =>
        v ∈ l ∧ v ≠ l.headD "" ∧ v ≠ l.getLastD "")).length : ℚ))).sum
        = (((nodes.map (fun v => (L.filter (fun l =>
            v ∈ l ∧ v ≠ l.headD "" ∧ v ≠ l.getLastD "")).length)).sum : ℕ) : ℚ) :=
          sum_map_cast_q _ _
      _ ≤ ((L.length * (nodes.length - 2) : ℕ) : ℚ) := by
          exact_mod_cast hsum_nat
      _ = ((nodes.length : ℚ) - 2) * (L.length : ℚ) := by
          push_cast [Nat.cast_sub hN2]
          ring


/-- C5 counterexample: on the six-node chain the 15 reconstructed shortest
paths of more than one node carry 20 interior-node incidences, so the
betweenness values sum to `20/15 = 4/3 > 1`, refuting the claimed bound
`Σ bc(v) ≤ 1`. -/
theorem C5_sum_exceeds_one_counterexample :
    (betweennessCentrality gChain6.nodes (fwSP gChain6)).toOption.map
      (fun bc => (bc.map (fun pr => pr.2)).sum) = some (4 / 3) ∧
    ¬ ((4 : ℚ) / 3 ≤ 1) := by
  constructor
  · with_unfolding_all decide
  · norm_num


/-- C5 witness: the amended bounds applied to the S2 graph and its
Floyd–Warshall tables. -/
theorem C5_betweenness_bounds_witness :
    gS2.nodes.Nodup ∧
    (allLongPaths gS2.nodes (fwSP gS2)).length ≠ 0 ∧
    (∃ bc : List (String × ℚ),
      betweennessCentrality gS2.nodes (fwSP gS2) = Except.ok bc ∧
      (∀ pr ∈ bc, 0 ≤ pr.2 ∧ pr.2 ≤ 1) ∧
      (bc.map (fun pr => pr.2)).sum ≤ (gS2.nodes.length : ℚ) - 2) :=
  ⟨by decide, by with_unfolding_all decide,
    C5_betweenness_bounds gS2.nodes (fwSP gS2) (by decide)
      (by with_unfolding_all decide) (by with_unfolding_all decide)⟩


theorem except_bind_ok {α β : Type} {x : Except String α}
    {f : α → Except String β} {b : β} (h : (x >>= f) = Except.ok b) :
    ∃ a, x = Except.ok a ∧ f a = Except.ok b := by
  cases x with
  | error e =>
    exact absurd h (by simp [Bind.bind, Except.bind])
  | ok a =>
    refine ⟨a, rfl, ?_⟩
    simpa [Bind.bind, Except.bind] using h


theorem checkBefore_state {st st' : GState}
    (h : checkBefore st = Except.ok st') :
    st'.live = st.live ∧ st'.snapshot = st.snapshot := by
  unfold checkBefore at h
  obtain ⟨ne, h1, h⟩ := except_bind_ok h
  obtain ⟨ge, h2, h⟩ := except_bind_ok h
  obtain ⟨rows, h3, h⟩ := except_bind_ok h
  injection h with h
  rw [← h]
  exact ⟨rfl, rfl⟩


theorem checkAfter_state {st st' : GState}
    (h : checkAfter st = Except.ok st') :
    st'.live = st.live ∧ st'.snapshot = st.snapshot := by
  unfold checkAfter at h
  obtain ⟨ne, h1, h⟩ := except_bind_ok h
  obtain ⟨ge, h2, h⟩ := except_bind_ok h
  obtain ⟨rowsFs, h3, h⟩ := except_bind_ok h
  injection h with h
  rw [← h]
  exact ⟨rfl, rfl⟩


theorem updateStatus_snapshot (st : GState) (w : List (String × String))
    (f : String) (a : List String) :
    (updateStatus st w f a).snapshot = st.snapshot := by
  unfold updateStatus
  split <;> rfl


theorem simulateCascade_snapshot :
    ∀ (fv : List String) (st : GState),
      (simulateCascade fv st).snapshot = st.snapshot
  | [], st => rfl
  | a :: fv, st => by
    show (simulateCascade fv _).snapshot = _
    rw [simulateCascade_snapshot fv _]
    split <;> rfl


/-- C6: on either orchestrator's success path, the snapshot `copy_of_self1`
still contains every node that was in the live graph when the snapshot was
made (which is the entry live graph: `check_before` does not change the node
set, and `remove_node` is applied only to the live graph). -/
theorem C6_snapshot_retains_nodes :
    (∀ (st : GState) (m : String) (st' : GState) (tb : Tables),
      deleteANode st m = Except.ok (st', some tb) →
      ∀ v ∈ st.live.nodes, v ∈ st'.snapshot.nodes) ∧
    (∀ (st : GState) (areas : List String) (st' : GState) (tb : Tables),
      simulateMultiArea st areas = Except.ok (st', some tb) →
      ∀ v ∈ st.live.nodes, v ∈ st'.snapshot.nodes) := by
  constructor
  · intro st m st' tb h v hv
    unfold deleteANode at h
    split at h
    · obtain ⟨st₁, h1, h⟩ := except_bind_ok h
      obtain ⟨_, hc1, h⟩ := except_bind_ok h
      obtain ⟨_, hc2, h⟩ := except_bind_ok h
      obtain ⟨_, hc3, h⟩ := except_bind_ok h
      obtain ⟨_, hc4, h⟩ := except_bind_ok h
      obtain ⟨_, hc5, h⟩ := except_bind_ok h
      obtain ⟨st₄, h4, h⟩ := except_bind_ok h
      injection h with h
      injection h with hst htb
      have hsnap4 := (checkAfter_state h4).2
      have hlive1 := (checkBefore_state h1).1
      rw [← hst]
      show v ∈ ((updateStatus (updateStatus st₄ _ _ _) _ _ _).snapshot).nodes
      rw [updateStatus_snapshot, updateStatus_snapshot, hsnap4]
      show v ∈ st₁.live.nodes
      rw [hlive1]
      exact hv
    · injection h with h
      injection h with hst htb
      exact absurd htb (by simp)
  · intro st areas st' tb h v hv
    unfold simulateMultiArea at h
    split at h
    · exact absurd h (by simp)
    · obtain ⟨st₁, h1, h⟩ := except_bind_ok h
      obtain ⟨_, hc1, h⟩ := except_bind_ok h
      obtain ⟨_, hc2, h⟩ := except_bind_ok h
      obtain ⟨_, hc3, h⟩ := except_bind_ok h
      obtain ⟨st₅, h5, h⟩ := except_bind_ok h
      injection h with h
      injection h with hst htb
      have hsnap5 := (checkAfter_state h5).2
      have hlive1 := (checkBefore_state h1).1
      rw [← hst]
      show v ∈ ((updateStatus (updateStatus st₅ _ _ _) _ _ _).snapshot).nodes
      rw [updateStatus_snapshot, updateStatus_snapshot, hsnap5]
      show v ∈ (simulateCascade _ _).snapshot.nodes
      rw [simulateCascade_snapshot]
      show v ∈ st₁.live.nodes
      rw [hlive1]
      exact hv


/-- C6 witness: both orchestrators applied to the S2 state keep node `C` in
the snapshot of their successful runs. -/
theorem C6_snapshot_retains_nodes_witness :
    (deleteANode stS2 "A").toOption.map
      (fun r => decide ("C" ∈ r.1.snapshot.nodes)) = some true ∧
    (simulateMultiArea stSim ["a1"]).toOption.map
      (fun r => decide ("C" ∈ r.1.snapshot.nodes)) = some true := by
  constructor
  · have hshape : (deleteANode stS2 "A").toOption.map
        (fun r => r.2.isSome) = some true := by
      with_unfolding_all decide
    rcases hrun : deleteANode stS2 "A" with e | ⟨st', otb⟩
    · rw [hrun] at hshape
      simp [Except.toOption] at hshape
    · rw [hrun] at hshape
      simp only [Except.toOption, Option.map_some'] at hshape
      rcases otb with _ | tb
      · simp at hshape
      · have hmem := C6_snapshot_retains_nodes.1 stS2 "A" st' tb hrun "C"
          (by decide)
        simp [Except.toOption, hmem]
  · have hshape : (simulateMultiArea stSim ["a1"]).toOption.map
        (fun r => r.2.isSome) = some true := by
      with_unfolding_all decide
    rcases hrun : simulateMultiArea stSim ["a1"] with e | ⟨st', otb⟩
    · rw [hrun] at hshape
      simp [Except.toOption] at hshape
    · rw [hrun] at hshape
      simp only [Except.toOption, Option.map_some'] at hshape
      rcases otb with _ | tb
      · simp at hshape
      · have hmem := C6_snapshot_retains_nodes.2 stSim ["a1"] st' tb hrun "C"
          (by decide)
        simp [Except.toOption, hmem]


/-- C7: `delete_a_node` on an absent node only prints the two diagnostics:
the state is returned exactly as it was and no result table is produced. -/
theorem C7_delete_absent_node_noop (st : GState) (m : String)
    (hm : m ∉ st.live.nodes) :
    deleteANode st m = Except.ok (st, none) := by
  unfold deleteANode
  rw [if_neg hm]


/-- C7 witness: deleting the unknown node `Z` from the S2 state changes
nothing. -/
theorem C7_delete_absent_node_noop_witness :
    deleteANode stS2 "Z" = Except.ok (stS2, none) :=
  C7_delete_absent_node_noop stS2 "Z" (by decide)


/-- C9: with exactly one live node, `nodal_eff` divides the integer 0 by
`g_len - 1 = 0` and raises `ZeroDivisionError`; consequently `check_after`
fails on any cascade that leaves a single surviving node, instead of
producing result tables. -/
theorem C9_single_node_division_by_zero :
    (∀ (nodes : List String) (eff : String → List (String × ℚ)),
      nodes.length = 1 →
      nodalEff nodes eff =
        Except.error "ZeroDivisionError: division by zero") ∧
    (∀ st : GState, st.live.nodes.length = 1 →
      checkAfter st = Except.error "ZeroDivisionError: division by zero") := by
  have h1 : ∀ (nodes : List String) (eff : String → List (String × ℚ)),
      nodes.length = 1 →
      nodalEff nodes eff =
        Except.error "ZeroDivisionError: division by zero" := by
    intro nodes eff hlen
    unfold nodalEff
    rw [if_neg (by omega), if_pos hlen]
  refine ⟨h1, fun st hlen => ?_⟩
  have herr := h1 st.live.nodes (calculateShortestPath st.live).eff hlen
  unfold checkAfter
  simp only [herr]
  rfl


/-- C9 witness: the division-by-zero on the concrete one-node graph. -/
theorem C9_single_node_division_by_zero_witness :
    nodalEff ["X"] (fun _ => []) =
      Except.error "ZeroDivisionError: division by zero" ∧
    checkAfter stOne = Except.error "ZeroDivisionError: division by zero" :=
  ⟨C9_single_node_division_by_zero.1 ["X"] (fun _ => []) (by decide),
   C9_single_node_division_by_zero.2 stOne (by decide)⟩


theorem mergeInto_keys (acc : List (String × SRow)) (r : SRow) :
    (mergeInto acc r).map Prod.fst =
      if r.ids ∈ acc.map Prod.fst then acc.map Prod.fst
      else acc.map Prod.fst ++ [r.ids] := by
  unfold mergeInto
  have hany : (acc.any (fun kv => kv.1 = r.ids)) = true ↔
      r.ids ∈ acc.map Prod.fst := by
    simp [List.any_eq_true, List.mem_map]
  by_cases h : r.ids ∈ acc.map Prod.fst
  · rw [if_pos (hany.mpr h), if_pos h, List.map_map]
    apply List.map_congr_left
    intro kv _
    by_cases hk : kv.1 = r.ids
    · simp [hk]
    · simp [hk]
  · rw [if_neg (by rw [hany]; exact h), if_neg h, List.map_append]
    rfl


theorem mergeInto_vals (acc : List (String × SRow)) (r : SRow)
    (h : ∀ kv ∈ acc, kv.2.ids = kv.1) :
    ∀ kv ∈ mergeInto acc r, kv.2.ids = kv.1 := by
  intro kv hkv
  unfold mergeInto at hkv
  split at hkv
  · obtain ⟨kv0, hkv0, heq⟩ := List.mem_map.mp hkv
    by_cases hk : kv0.1 = r.ids
    · rw [if_pos hk] at heq
      rw [← heq]
      show (SRow.update kv0.2 r).ids = kv0.1
      rw [hk]
      rfl
    · rw [if_neg hk] at heq
      rw [← heq]
      exact h kv0 hkv0
  · rcases List.mem_append.mp hkv with hin | hnew
    · exact h kv hin
    · rw [List.mem_singleton.mp hnew]


theorem foldl_mergeInto_vals :
    ∀ (rows : List SRow) (acc : List (String × SRow)),
      (∀ kv ∈ acc, kv.2.ids = kv.1) →
      ∀ kv ∈ rows.foldl mergeInto acc, kv.2.ids = kv.1
  | [], _, h => h
  | r :: rows, acc, h =>
    foldl_mergeInto_vals rows (mergeInto acc r) (mergeInto_vals acc r h)


theorem foldl_mergeInto_keys :
    ∀ (rows : List SRow) (acc : List (String × SRow)),
      (rows.foldl mergeInto acc).map Prod.fst =
        keyFold (acc.map Prod.fst) (rows.map SRow.ids)
  | [], _ => rfl
  | r :: rows, acc => by
    show (rows.foldl mergeInto (mergeInto acc r)).map Prod.fst = _
    rw [foldl_mergeInto_keys rows (mergeInto acc r), mergeInto_keys]
    rfl


theorem keyFold_nodup :
    ∀ (ids ks : List String), ks.Nodup → (keyFold ks ids).Nodup
  | [], _, h => h
  | i :: ids, ks, h => by
    show (keyFold (if i ∈ ks then ks else ks ++ [i]) ids).Nodup
    apply keyFold_nodup
    by_cases hm : i ∈ ks
    · rw [if_pos hm]
      exact h
    · rw [if_neg hm]
      simp [List.nodup_append, h, hm]


theorem keyFold_mem :
    ∀ (ids ks : List String) (k : String),
      k ∈ keyFold ks ids ↔ k ∈ ks ∨ k ∈ ids
  | [], ks, k => by simp [keyFold]
  | i :: ids, ks, k => by
    show k ∈ keyFold (if i ∈ ks then ks else ks ++ [i]) ids ↔ _
    rw [keyFold_mem ids _ k]
    by_cases hm : i ∈ ks
    · rw [if_pos hm]
      simp only [List.mem_cons]
      constructor
      · rintro (h | h)
        · exact Or.inl h
        · exact Or.inr (Or.inr h)
      · rintro (h | h | h)
        · exact Or.inl h
        · exact Or.inl (h ▸ hm)
        · exact Or.inr h
    · rw [if_neg hm]
      simp only [List.mem_append, List.mem_cons, List.not_mem_nil, or_false]
      constructor
      · rintro ((h | h) | h)
        · exact Or.inl h
        · exact Or.inr (Or.inl h)
        · exact Or.inr (Or.inr h)
      · rintro (h | h | h)
        · exact Or.inl (Or.inl h)
        · exact Or.inl (Or.inr h)
        · exact Or.inr h


theorem filter_vals_eq (k : String) :
    ∀ L : List (String × SRow),
      (∀ kv ∈ L, kv.2.ids = kv.1) →
      ((L.map Prod.snd).filter (fun r => r.ids = k)).length =
        ((L.map Prod.fst).filter (fun x => x = k)).length
  | [], _ => rfl
  | kv :: L, h => by
    have hh := h kv (List.mem_cons_self kv L)
    have ih := filter_vals_eq k L (fun kv' h' => h kv' (List.mem_cons_of_mem _ h'))
    by_cases hk : kv.1 = k <;>
      simp [List.filter_cons, hh, hk, ih]


theorem filter_eq_nodup (k : String) :
    ∀ ks : List String, ks.Nodup →
      (ks.filter (fun x => x = k)).length = if k ∈ ks then 1 else 0
  | [], _ => by simp
  | i :: ks, h => by
    obtain ⟨hi, h'⟩ := List.nodup_cons.mp h
    have ih := filter_eq_nodup k ks h'
    by_cases hk : i = k
    · subst hk
      simp [List.filter_cons, ih, hi]
    · have hk' : ¬ (k = i) := fun he => hk he.symm
      simp [List.filter_cons, hk, hk', ih, List.mem_cons]


theorem mergeLists_count (l1 l2 : List SRow) (k : String) :
    ((mergeLists l1 l2).filter (fun r => r.ids = k)).length =
      if k ∈ (l1 ++ l2).map SRow.ids then 1 else 0 := by
  unfold mergeLists
  have hinv := foldl_mergeInto_vals (l1 ++ l2) [] (by intro kv hkv; simp at hkv)
  rw [filter_vals_eq k _ hinv, foldl_mergeInto_keys]
  simp only [List.map_nil]
  rw [filter_eq_nodup k _ (keyFold_nodup _ _ List.nodup_nil)]
  by_cases hm : k ∈ (l1 ++ l2).map SRow.ids
  · rw [if_pos (keyFold_mem _ _ k |>.mpr (Or.inr hm)), if_pos hm]
  · rw [if_neg (fun hc => by
      rcases (keyFold_mem _ _ k).mp hc with h0 | h0
      · simp at h0
      · exact hm h0), if_neg hm]


/-- C10: the merged service-paths dict keeps exactly one row per distinct
`ids` key, so rows of distinct (SOURCE, USER) pairs with the same
concatenation collapse; concretely, on `gC10` the pairs `(A, BC)` and
`(AB, C)` both produce key `"ABC"`, `lst0` holds two rows with that key, and
the written table holds a single merged `"ABC"` row (3 rows for 4 pairs). -/
theorem C10_merge_collapses_equal_ids :
    (∀ (l1 l2 : List SRow) (k : String),
      ((mergeLists l1 l2).filter (fun r => r.ids = k)).length =
        if k ∈ (l1 ++ l2).map SRow.ids then 1 else 0) ∧
    ("A" ++ "BC" = "AB" ++ "C") ∧
    (deleteANode stC10 "A").toOption.map (fun r =>
        ((r.1.lst0.filter (fun s => s.ids = "ABC")).length,
         r.2.map (fun tb =>
           ((tb.1.filter (fun s => s.ids = "ABC")).length, tb.1.length)))) =
      some (2, some (1, 3)) := by
  refine ⟨mergeLists_count, rfl, ?_⟩
  with_unfolding_all decide


/-- C10 witness: the count rule applied to two concrete rows keyed `"ABC"`. -/
theorem C10_merge_collapses_equal_ids_witness :
    ((mergeLists [rowA_BC, rowAB_C] []).filter
      (fun r => r.ids = "ABC")).length = 1 := by
  have h := C10_merge_collapses_equal_ids.1 [rowA_BC, rowAB_C] [] "ABC"
  rw [h, if_pos (by decide)]
